import Mathlib

/-!
Verification of the transcript-comparison core of the repository
(`src/utilities.py`): text normalization (`clean_text` and its helpers),
error-rate calculation (`calculate_wer`, `calculate_cer`, `weighted_wer`),
alignment (`equalize`) and the line-wrapping renderer (`insert_newlines`).

Strings are modelled as `List Char`.  Python builtins are modelled over the
ASCII fragment: `str.lower` lowercases `A`-`Z` (via `Char.toLower`),
`str.split()` splits on whitespace runs, `string.punctuation` is the four
ASCII punctuation ranges, and the regex classes `\w` / `\W` are
`[A-Za-z0-9_]` and its complement.
-/

set_option maxHeartbeats 1000000
set_option maxRecDepth 8000

abbrev Str := List Char

/-- Whitespace as recognised by Python `str.split`, `str.strip` and `\s`
(ASCII fragment): space, tab, newline, carriage return, vertical tab,
form feed. -/
def pyIsSpace (c : Char) : Bool :=
  c == ' ' || c == '\t' || c == '\n' || c == '\r' || c.toNat == 11 || c.toNat == 12

/-- Membership in Python `string.punctuation`, which is exactly the ASCII
punctuation: codes 33-47, 58-64, 91-96 and 123-126. -/
def isPunct (c : Char) : Bool :=
  (33 ≤ c.toNat && c.toNat ≤ 47) || (58 ≤ c.toNat && c.toNat ≤ 64) ||
  (91 ≤ c.toNat && c.toNat ≤ 96) || (123 ≤ c.toNat && c.toNat ≤ 126)

/-- Membership in the regex class `\w` (ASCII fragment): letters, digits and
the underscore. -/
def isWordChar (c : Char) : Bool :=
  c.isAlphanum || c == '_'

/-- Python `str.lower` on one character (ASCII fragment). -/
def pyLowerChar (c : Char) : Char := c.toLower

/-- Python `str.lower` (ASCII fragment). -/
def pyLower (s : Str) : Str := s.map pyLowerChar

/-- Helper of `splitWords`: `acc` is the current (reversed) partial word. -/
def splitWordsAux : Str → Str → List Str
  | [], acc => if acc = [] then [] else [acc.reverse]
  | c :: rest, acc =>
      if pyIsSpace c then
        if acc = [] then splitWordsAux rest [] else acc.reverse :: splitWordsAux rest []
      else splitWordsAux rest (c :: acc)

/-- Python `str.split()` with no argument: split on runs of whitespace,
producing no empty words. -/
def splitWords (s : Str) : List Str := splitWordsAux s []

/-- Python `" ".join(ws)`. -/
def joinSpace : List Str → Str
  | [] => []
  | [w] => w
  | w :: ws => w ++ ' ' :: joinSpace ws

/-- Python `str.strip()`: remove leading and trailing whitespace. -/
def pyStrip (s : Str) : Str :=
  ((s.dropWhile pyIsSpace).reverse.dropWhile pyIsSpace).reverse

/-- Python `dict` lookup on an association list (dict keys are unique, so
first-match lookup is faithful). -/
def dictLookup (d : List (Str × Str)) (k : Str) : Option Str :=
  match d with
  | [] => none
  | (a, b) :: rest => if a = k then some b else dictLookup rest k

/-- Loop body of `replace_words` (src/utilities.py lines 88-92): if the
lowercased word is a key of `replacements`, substitute the mapped value. -/
def replaceOne (replacements : List (Str × Str)) (w : Str) : Str :=
  match dictLookup replacements (pyLower w) with
  | some v => v
  | none => w

/-- `replace_words` (src/utilities.py lines 79-93): split on whitespace,
replace each word whose lowercase form is a key, accumulate `word + " "`,
then strip the result. -/
def replace_words (text : Str) (replacements : List (Str × Str)) : Str :=
  pyStrip ((splitWords text).foldl (fun acc w => acc ++ replaceOne replacements w ++ [' ']) [])

/-- `remove_punctuation` (src/utilities.py lines 50-60): delete every
`string.punctuation` character via `str.translate`. -/
def remove_punctuation (text : Str) : Str :=
  text.filter (fun c => !isPunct c)

/-- `remove_words` (src/utilities.py lines 63-76): keep the words whose
lowercase form is not in `words_to_remove`, rejoin with single spaces. -/
def remove_words (text : Str) (words_to_remove : List Str) : Str :=
  joinSpace ((splitWords text).filter (fun w => !(words_to_remove.contains (pyLower w))))

/-- Maximal runs of word characters (`\w+`) and non-word characters (`\W+`):
`runs s` is the list of maximal constant-`isWordChar` runs of `s`, each
tagged with its `isWordChar` value. -/
def runs : Str → List (Bool × Str)
  | [] => []
  | c :: rest =>
      match runs rest with
      | (b, r) :: rs =>
          if isWordChar c = b then (b, c :: r) :: rs
          else (isWordChar c, [c]) :: (b, r) :: rs
      | [] => [(isWordChar c, [c])]

/-- Concatenation of the run contents; left inverse of `runs`. -/
def joinRuns (rs : List (Bool × Str)) : Str :=
  rs.foldr (fun p acc => p.2 ++ acc) []

/-- One `(?:\W+\1\b)+` repetition step of the duplicate-collapsing regex:
starting after a word run equal (case-insensitively, via `re.IGNORECASE`) to
`w`, greedily consume further separator-run / duplicate-word-run pairs. -/
def eatDups (w : Str) : List (Bool × Str) → List (Bool × Str)
  | (false, s) :: (true, w2) :: rest =>
      if pyLower w2 = pyLower w then eatDups w rest
      else (false, s) :: (true, w2) :: rest
  | l => l

/-- Fuelled scan implementing `re.sub(r"\b(\w+)(?:\W+\1\b)+", r"\1", text)`
at the level of runs; `fuel` at least the list length makes it total. -/
def collapseGo : Nat → List (Bool × Str) → List (Bool × Str)
  | _, [] => []
  | 0, l => l
  | fuel + 1, (false, s) :: rest => (false, s) :: collapseGo fuel rest
  | fuel + 1, (true, w) :: rest => (true, w) :: collapseGo fuel (eatDups w rest)

/-- Scan of the whole run list. -/
def collapse (rs : List (Bool × Str)) : List (Bool × Str) := collapseGo rs.length rs

/-- `remove_consecutive_duplicates` (src/utilities.py lines 96-105):
`re.sub(r"\b(\w+)(?:\W+\1\b)+", r"\1", text)` with `re.IGNORECASE`.

Semantics of the regex on an arbitrary string: a match can only start at the
beginning of a maximal `\w`-run (the leading `\b` fails inside a run and
`\w+` fails on a non-word character); the greedy `\w+` must capture that
whole run (otherwise the following mandatory `\W+` would have to match a
word character); each `(?:\W+\1\b)+` repetition then consumes exactly the
next maximal non-word run and the next maximal word run, which must equal
the captured word case-insensitively (`\W+` cannot stop inside the non-word
run because `\1` starts with a word character, and the trailing `\b` forces
`\1` to exhaust the word run); the repetition is greedy, and the whole match
is replaced by the first word `\1`, after which scanning resumes at the next
word run.  `collapse` implements exactly this scan over the maximal runs. -/
def remove_consecutive_duplicates (text : Str) : Str :=
  joinRuns (collapse (runs text))

/-- Step 1 of `clean_text` (src/utilities.py line 122):
`text.replace("-", " ")`. -/
def hyphensToSpaces (text : Str) : Str :=
  text.map (fun c => if c = '-' then ' ' else c)

/-- Step 7 of `clean_text` (src/utilities.py lines 128-129): lowercase the
result when `cased` is false. -/
def applyCasing (cased : Bool) (text : Str) : Str :=
  if cased then text else pyLower text

/-- `clean_text` (src/utilities.py lines 108-130). -/
def clean_text (text : Str) (replacements : List (Str × Str)) (to_remove : List Str)
    (cased : Bool) : Str :=
  let t1 := hyphensToSpaces text
  let t2 := replace_words t1 replacements
  let t3 := remove_punctuation t2
  let t4 := replace_words t3 replacements
  let t5 := remove_words t4 to_remove
  let t6 := remove_consecutive_duplicates t5
  applyCasing cased t6

/-- Next row of the Wagner-Fischer dynamic program: given the previous row
`dj :: rest` (distances of `ys`-prefixes to the previous `xs`-prefix) and
the entry `e` already computed for the empty `ys`-prefix, produce the rest
of the new row. -/
def levRowAux [DecidableEq α] (x : α) : List α → List Nat → Nat → List Nat
  | y :: ys, dj :: rest, e =>
      let cost := if x = y then 0 else 1
      let e2 := min (dj + cost) (min (rest.headD 0 + 1) (e + 1))
      e2 :: levRowAux x ys rest e2
  | _, _, _ => []

/-- Word- or character-level edit distance (unit costs), computed by the
standard dynamic program; this is the distance used by `jiwer.wer` and
`jiwer.cer`. -/
def editDistance [DecidableEq α] (xs ys : List α) : Nat :=
  let init := List.range (ys.length + 1)
  let final := xs.foldl (fun row x => (row.headD 0 + 1) :: levRowAux x ys row (row.headD 0 + 1)) init
  final.getLastD 0

/-- Round a rational to the nearest integer, halves to even; the behaviour
of Python `round` (float representation artifacts are outside the model). -/
def roundHalfEven (q : ℚ) : ℤ :=
  let f := ⌊q⌋
  let r := q - (f : ℚ)
  if r < 1/2 then f else if 1/2 < r then f + 1 else if f % 2 = 0 then f else f + 1

/-- Python `round(q, 2)` over the rationals. -/
def round2 (q : ℚ) : ℚ := (roundHalfEven (q * 100) : ℚ) / 100

/-- Modelled from the spec: `jiwer.wer` is an external library function (only
imported by src/utilities.py).  Per the spec it is the word-level
edit-distance error rate over the two word sequences, and an empty reference
word sequence "must be reported as an explicit error" (it raises
`ValueError`), modelled by `none`. -/
def jiwerWer (reference hypothesis : Str) : Option ℚ :=
  let r := splitWords reference
  let h := splitWords hypothesis
  if r.isEmpty then none
  else some ((editDistance r h : ℚ) / (r.length : ℚ))

/-- Modelled from the spec: `jiwer.cer` is an external library function; "CER
uses the same formula at the character level", with the same explicit error
on an empty reference, modelled by `none`.  The character sequences are the
stripped strings, spaces included. -/
def jiwerCer (reference hypothesis : Str) : Option ℚ :=
  let r := pyStrip reference
  let h := pyStrip hypothesis
  if r.isEmpty then none
  else some ((editDistance r h : ℚ) / (r.length : ℚ))

/-- `calculate_wer` (src/utilities.py lines 307-330): clean both texts, then
`round(100 * wer(...), 2)`; `none` models the `ValueError` that `jiwer`
raises on an empty cleaned reference. -/
def calculate_wer (ground_true hypothesis : Str) (replacements : List (Str × Str))
    (to_remove : List Str) (cased : Bool) : Option ℚ :=
  let g := clean_text ground_true replacements to_remove cased
  let h := clean_text hypothesis replacements to_remove cased
  (jiwerWer g h).map (fun v => round2 (100 * v))

/-- `calculate_cer` (src/utilities.py lines 333-356): clean both texts, then
`round(100 * cer(...), 2)`. -/
def calculate_cer (ground_true hypothesis : Str) (replacements : List (Str × Str))
    (to_remove : List Str) (cased : Bool) : Option ℚ :=
  let g := clean_text ground_true replacements to_remove cased
  let h := clean_text hypothesis replacements to_remove cased
  (jiwerCer g h).map (fun v => round2 (100 * v))

/-- Sum of a list of integers (Python `sum`). -/
def sumInt (l : List ℤ) : ℤ := l.foldl (· + ·) 0

/-- `weighted_wer` (src/utilities.py lines 359-369):
`round(sum(w * r for w, r in zip(weights, wers)) / sum(weights), 2)`.
`zip` silently truncates to the shorter list; the only failure is the
`ZeroDivisionError` when `sum(weights) == 0`, modelled by `none`. -/
def weighted_wer (weights : List ℤ) (wers : List ℚ) : Option ℚ :=
  let s := sumInt weights
  if s = 0 then none
  else some (round2 (((weights.zip wers).foldl (fun acc p => acc + (p.1 : ℚ) * p.2) 0) / (s : ℚ)))

/-- Inner `while` loop of `insert_newlines` (src/utilities.py lines 236-237):
starting from `co` (initially `every`), decrement while `co > lo` (with
`lo = every - window`) and the character before position `co` is not a
space.  The guard order differs harmlessly from Python (which indexes
first): whenever Python exits the loop, so does this scan, at the same
value. -/
def findCut (s : Str) (lo : Nat) : Nat → Nat
  | 0 => 0
  | co + 1 =>
      if co + 1 > lo && !(s.getD co ' ' == ' ') then findCut s lo co else co + 1

/-- One iteration of the outer `while` loop of `insert_newlines`
(src/utilities.py lines 233-242): compute the cut position and split the
remaining string there into the emitted part and the rest. -/
def insertStep (every window : Nat) (s : Str) : Str × Str :=
  let cut_off := if s.length > every then findCut s (every - window) every else s.length
  (s.take cut_off, s.drop cut_off)

/-- Fuelled outer loop of `insert_newlines`; when `window < every` each
iteration consumes at least one character, so `fuel = s.length` suffices
and the model agrees with the Python loop. -/
def insertLoop (every window : Nat) : Nat → Str → List Str
  | _, [] => []
  | 0, _ => []
  | fuel + 1, s =>
      (insertStep every window s).1 :: insertLoop every window fuel (insertStep every window s).2

/-- `insert_newlines` (src/utilities.py lines 221-243). -/
def insert_newlines (s : Str) (every window : Nat) : List Str :=
  insertLoop every window s.length s

/-- Concatenation of a list of strings. -/
def concatAll (l : List Str) : Str := l.foldr (· ++ ·) []

/-- Python string indexing `s[i]` with an `Int` index: a negative index
counts from the end of the string; `none` models an `IndexError`. -/
def pyIndex (s : Str) (i : Int) : Option Char :=
  if 0 ≤ i then
    if i < (s.length : Int) then some (s.getD i.toNat ' ') else none
  else
    if 0 ≤ i + (s.length : Int) then some (s.getD (i + (s.length : Int)).toNat ' ')
    else none

/-- Python slice `s[:i]` with an `Int` bound: a negative bound counts from
the end (clamped to the string, like Python). -/
def pySliceTo (s : Str) (i : Int) : Str :=
  if 0 ≤ i then s.take i.toNat else s.take ((i + (s.length : Int)).toNat)

/-- Python slice `s[i:]` with an `Int` bound: a negative bound counts from
the end (clamped to the string, like Python). -/
def pySliceFrom (s : Str) (i : Int) : Str :=
  if 0 ≤ i then s.drop i.toNat else s.drop ((i + (s.length : Int)).toNat)

/-- Inner `while` loop of `insert_newlines` (src/utilities.py lines 236-237)
over `Int` cut positions with Python indexing, entered only when
`s.length > every`: the guard first reads `from_string[cut_off - 1]` (a
`none` propagates the `IndexError`) and the loop continues while that
character is not a space and `cut_off > every - window`.  The loop performs
at most `window` decrements from `cut_off = every`, so `fuel = window + 1`
covers every reachable iteration; `findCut` above is the restriction of this
scan to `window ≤ every`, where the cut position stays non-negative. -/
def findCutIGo (s : Str) (lo : Int) : Nat → Int → Option Int
  | 0, co => some co
  | fuel + 1, co =>
      match pyIndex s (co - 1) with
      | none => none
      | some c => if c ≠ ' ' ∧ lo < co then findCutIGo s lo fuel (co - 1) else some co

/-- One iteration of the outer `while` loop of `insert_newlines`
(src/utilities.py lines 233-242) over `Int` cut positions: faithful for
every `window`, including `window > every`, where Python's negative
indexing and slicing take over; `none` models an uncaught `IndexError`. -/
def insertStepI (every window : Nat) (s : Str) : Option (Str × Str) :=
  if s.length > every then
    match findCutIGo s ((every : Int) - (window : Int)) (window + 1) (every : Int) with
    | none => none
    | some co => some (pySliceTo s co, pySliceFrom s co)
  else some (pySliceTo s (s.length : Int), pySliceFrom s (s.length : Int))

/-- Fuelled outer loop of `insert_newlines` over the `Int` model; `none`
propagates an `IndexError` out of the call. -/
def insertLoopI (every window : Nat) : Nat → Str → Option (List Str)
  | _, [] => some []
  | 0, _ => some []
  | fuel + 1, s =>
      match insertStepI every window s with
      | none => none
      | some pr =>
          match insertLoopI every window fuel pr.2 with
          | none => none
          | some l => some (pr.1 :: l)

/-- `insert_newlines` (src/utilities.py lines 221-243) in the `Int` model:
faithful for all `every`/`window` combinations, including the negative
cut positions Python reaches when `window > every`. -/
def insert_newlinesI (s : Str) (every window : Nat) : Option (List Str) :=
  insertLoopI every window s.length s

/-- The boundary between `chunk` and the remaining text `rest` falls strictly
inside a word: the chunk ends with a non-space character and the rest begins
with one. -/
def endsMidWord (chunk rest : Str) : Bool :=
  !(chunk.getLastD ' ' == ' ') && !(rest.headD ' ' == ' ')

/-- Length of the word containing a mid-word chunk boundary: the non-space
suffix of the chunk plus the non-space prefix of the remaining text. -/
def brokenWordLen (chunk rest : Str) : Nat :=
  (chunk.reverse.takeWhile (fun c => !(c == ' '))).length +
  (rest.takeWhile (fun c => !(c == ' '))).length

/-- Every chunk except the last either ends at a space boundary or ends
inside a word longer than `bound` characters (`rest` is the concatenation of
all later chunks, since a very long word may be cut more than once). -/
def noMidWordSplits (bound : Nat) : List Str → Bool
  | [] => true
  | c :: rest =>
      (!(endsMidWord c (concatAll rest)) || bound < brokenWordLen c (concatAll rest)) &&
      noMidWordSplits bound rest

/-- Helper of `tokenize`: map every whitespace character to a space and
collapse whitespace runs to a single space (`prevWs` records whether the
previous character was whitespace). -/
def collapseWsAux : Str → Bool → Str
  | [], _ => []
  | c :: rest, prevWs =>
      if pyIsSpace c then
        (if prevWs then collapseWsAux rest true else ' ' :: collapseWsAux rest true)
      else c :: collapseWsAux rest false

/-- Split at every space character, keeping empty pieces (so a leading or
trailing separator yields an empty token, as `re.split` does). -/
def splitOnSpace : Str → List Str
  | [] => [[]]
  | c :: rest =>
      if c = ' ' then [] :: splitOnSpace rest
      else
        match splitOnSpace rest with
        | t :: ts => (c :: t) :: ts
        | [] => [[c]]

/-- `tokenize` (src/utilities.py lines 133-141): `re.split(r"\s+", text)`,
which splits on maximal whitespace runs and keeps empty strings at the
boundaries. -/
def tokenize (s : Str) : List Str := splitOnSpace (collapseWsAux s false)

/-- `untokenize` (src/utilities.py lines 144-152): `" ".join(text_list)`. -/
def untokenize (l : List Str) : Str := joinSpace l

/-- Length of the common prefix of two lists (the length of the matching
block starting at a given pair of positions). -/
def runLen [DecidableEq α] : List α → List α → Nat
  | x :: xs, y :: ys => if x = y then runLen xs ys + 1 else 0
  | _, _ => 0

/-- Modelled from the spec: the matching-block search of
`difflib.SequenceMatcher` (an external library used at src/utilities.py
line 206).  Per the spec it finds the longest contiguous matching
subsequence, ties broken "leftmost-longest-earliest": the scan keeps the
first pair `(i, j)` in lexicographic order realising the maximal length
(the junk heuristics of `difflib` are not part of the spec and are not
modelled). -/
def bestMatch [DecidableEq α] (xs ys : List α) : Nat × Nat × Nat :=
  (List.range xs.length).foldl (fun acc i =>
    (List.range ys.length).foldl (fun acc j =>
      if acc.2.2 < runLen (xs.drop i) (ys.drop j) then (i, j, runLen (xs.drop i) (ys.drop j))
      else acc) acc)
    (0, 0, 0)

/-- Modelled from the spec: recursive decomposition of
`SequenceMatcher.get_matching_blocks` — "repeatedly find the longest
contiguous matching subsequence, recurse on the remainder on both sides".
Offsets `aoff`, `boff` locate the current slices inside the original lists;
`fuel` at least `xs.length + ys.length` makes the recursion total. -/
def matchBlocksGo [DecidableEq α] : Nat → List α → List α → Nat → Nat → List (Nat × Nat × Nat)
  | 0, _, _, _, _ => []
  | fuel + 1, xs, ys, aoff, boff =>
      let b := bestMatch xs ys
      if b.2.2 = 0 then []
      else
        matchBlocksGo fuel (xs.take b.1) (ys.take b.2.1) aoff boff ++
        [(aoff + b.1, boff + b.2.1, b.2.2)] ++
        matchBlocksGo fuel (xs.drop (b.1 + b.2.2)) (ys.drop (b.2.1 + b.2.2))
          (aoff + b.1 + b.2.2) (boff + b.2.1 + b.2.2)

/-- Matching blocks of two token lists, without the terminal dummy block. -/
def matchBlocks [DecidableEq α] (xs ys : List α) : List (Nat × Nat × Nat) :=
  matchBlocksGo (xs.length + ys.length) xs ys 0 0

/-- Gap filler for a missing token: `"_" * len(w)`. -/
def gapFill (w : Str) : Str := List.replicate w.length '_'

/-- Slice `l[x:y]` of a token list. -/
def tokSlice (l : List Str) (x y : Nat) : List Str := (l.drop x).take (y - x)

/-- Loop of `equalize` (src/utilities.py lines 205-217) over the matching
blocks (the terminal dummy block included): `pea`/`peb` are
`prev.a + prev.size` and `prev.b + prev.size`; for each block, first the
unmatched `l1`-segment goes to `res1` with underscore fillers in `res2`,
then symmetrically, then the matched segments go to both sides. -/
def eqFold (l1 l2 : List Str) : List (Nat × Nat × Nat) → List Str × List Str → Nat × Nat → List Str × List Str
  | [], res, _ => res
  | m :: rest, res, pe =>
      eqFold l1 l2 rest
        ((res.1 ++ (if pe.1 ≠ m.1 then tokSlice l1 pe.1 m.1 else []) ++
            (if pe.2 ≠ m.2.1 then (tokSlice l2 pe.2 m.2.1).map gapFill else []) ++
            tokSlice l1 m.1 (m.1 + m.2.2),
          res.2 ++ (if pe.1 ≠ m.1 then (tokSlice l1 pe.1 m.1).map gapFill else []) ++
            (if pe.2 ≠ m.2.1 then tokSlice l2 pe.2 m.2.1 else []) ++
            tokSlice l2 m.2.1 (m.2.1 + m.2.2)))
        (m.1 + m.2.2, m.2.1 + m.2.2)

/-- Token-level result of `equalize`, before rejoining with spaces.  The
iteration includes the terminal block `(len(l1), len(l2), 0)` that
`get_matching_blocks` always appends. -/
def equalizeTokens (l1 l2 : List Str) : List Str × List Str :=
  eqFold l1 l2 (matchBlocks l1 l2 ++ [(l1.length, l2.length, 0)]) ([], []) (0, 0)

/-- `equalize` (src/utilities.py lines 192-218). -/
def equalize (s1 s2 : Str) : Str × Str :=
  let p := equalizeTokens (tokenize s1) (tokenize s2)
  (untokenize p.1, untokenize p.2)

/-- The alignment invariant of the claim: equal lengths, and at every
position the entries are equal, or one is the underscore filler of the
exact length of the other. -/
def alignedOk (r1 r2 : List Str) : Bool :=
  r1.length == r2.length &&
  (r1.zip r2).all (fun p => p.1 == p.2 || p.2 == gapFill p.1 || p.1 == gapFill p.2)

/-- C1: `clean_text` applies exactly the seven pipeline steps in order:
hyphen replacement, word replacement, punctuation stripping, word
replacement again, word removal, consecutive-duplicate collapsing, and
lowercasing when `cased` is false. -/
theorem clean_text_pipeline_order (text : Str) (R : List (Str × Str)) (rm : List Str)
    (cased : Bool) :
    clean_text text R rm cased =
      applyCasing cased
        (remove_consecutive_duplicates
          (remove_words
            (replace_words (remove_punctuation (replace_words (hyphensToSpaces text) R)) R)
            rm)) := rfl

/-- C5 counterexample: on the claimed input the code returns `"i am happy"`,
not `"I am happy"` — the mapped value `"i am"` is substituted verbatim, so
the capital `I` of the original word is lost. -/
theorem clean_text_example_cex :
    clean_text ("I".toList ++ [Char.ofNat 39] ++ "m happy happy".toList)
        [("i".toList ++ [Char.ofNat 39] ++ "m".toList, "i am".toList)] [] true
      ≠ "I am happy".toList := by decide

/-- C5 amended: `clean_text("I'm happy happy", {"i'm": "i am"}, [], cased=True)`
returns `"i am happy"`: the contraction is replaced before punctuation
stripping and the duplicate `happy` is collapsed, with the mapped value
substituted verbatim (the original capitalisation is discarded). -/
theorem clean_text_example_amended :
    clean_text ("I".toList ++ [Char.ofNat 39] ++ "m happy happy".toList)
        [("i".toList ++ [Char.ofNat 39] ++ "m".toList, "i am".toList)] [] true
      = "i am happy".toList := by decide

/-- C3 counterexample: on weight/rate lists of different lengths
`weighted_wer` does not fail — `zip` silently truncates and a numeric value
is returned (`1 * 0.5 / (1 + 2)` rounded to `0.17`). -/
theorem weighted_wer_mismatch_cex :
    weighted_wer [1, 2] [1/2] = some (17/100) := by
  rw [weighted_wer]
  norm_num [sumInt, round2, roundHalfEven, Int.fract]

/-- C3 amended: `weighted_wer` fails (with `ZeroDivisionError`) exactly when
`sum(weights) = 0`; a length mismatch is not detected — the products are
taken over the zipped (truncated) pairs while the divisor is the sum of all
weights — and otherwise the rounded weighted average is returned. -/
theorem weighted_wer_spec (weights : List ℤ) (wers : List ℚ) :
    weighted_wer weights wers =
      if sumInt weights = 0 then none
      else some (round2
        (((weights.zip wers).foldl (fun acc p => acc + (p.1 : ℚ) * p.2) 0) /
          ((sumInt weights : ℤ) : ℚ))) := rfl

/-- C2: when the cleaned reference has at least one word, `calculate_wer` is
`round(100 * editDistance(ref words, hyp words) / #ref words, 2)`; in
particular it is `0.00` on `("a b c", "a b c")` and `33.33` on
`("a b c", "a b")` with an empty cleaning configuration. -/
theorem calculate_wer_formula :
    (∀ (gt hyp : Str) (R : List (Str × Str)) (rm : List Str) (cased : Bool),
        splitWords (clean_text gt R rm cased) ≠ [] →
        calculate_wer gt hyp R rm cased =
          some (round2 (100 *
            ((editDistance (splitWords (clean_text gt R rm cased))
                (splitWords (clean_text hyp R rm cased)) : ℚ) /
              ((splitWords (clean_text gt R rm cased)).length : ℚ))))) ∧
    calculate_wer "a b c".toList "a b c".toList [] [] true = some 0 ∧
    calculate_wer "a b c".toList "a b".toList [] [] true = some (3333/100) := by
  refine ⟨?_, ?_, ?_⟩
  · intro gt hyp R rm cased h
    simp only [calculate_wer, jiwerWer]
    rw [if_neg (by simpa using h)]
    simp
  · have h1 : clean_text "a b c".toList [] [] true = "a b c".toList := by decide
    have h3 : splitWords "a b c".toList = [['a'], ['b'], ['c']] := by decide
    have h5 : editDistance [['a'], ['b'], ['c']] [['a'], ['b'], ['c']] = 0 := by decide
    simp only [calculate_wer, jiwerWer, h1, h3, h5]
    norm_num [round2, roundHalfEven]
    try norm_num [Int.fract]
  · have h1 : clean_text "a b c".toList [] [] true = "a b c".toList := by decide
    have h2 : clean_text "a b".toList [] [] true = "a b".toList := by decide
    have h3 : splitWords "a b c".toList = [['a'], ['b'], ['c']] := by decide
    have h4 : splitWords "a b".toList = [['a'], ['b']] := by decide
    have h5 : editDistance [['a'], ['b'], ['c']] [['a'], ['b']] = 1 := by decide
    simp only [calculate_wer, jiwerWer, h1, h2, h3, h4, h5]
    norm_num [round2, roundHalfEven]
    try norm_num [Int.fract]

/-- C2 witness: the general formula applied at `("a b c", "a b")`. -/
theorem calculate_wer_formula_witness :
    splitWords (clean_text "a b c".toList [] [] true) ≠ [] ∧
    calculate_wer "a b c".toList "a b".toList [] [] true =
      some (round2 (100 *
        ((editDistance (splitWords (clean_text "a b c".toList [] [] true))
            (splitWords (clean_text "a b".toList [] [] true)) : ℚ) /
          ((splitWords (clean_text "a b c".toList [] [] true)).length : ℚ)))) :=
  ⟨by decide, calculate_wer_formula.1 _ _ _ _ _ (by decide)⟩

/-- C4: when the reference is empty after cleaning, both `calculate_wer` and
`calculate_cer` report the explicit error (`none`, the model of the
`ValueError` raised by `jiwer`) and never return a numeric value. -/
theorem calculate_rates_empty_reference (gt hyp : Str) (R : List (Str × Str))
    (rm : List Str) (cased : Bool) (h : clean_text gt R rm cased = []) :
    calculate_wer gt hyp R rm cased = none ∧ calculate_cer gt hyp R rm cased = none := by
  constructor
  · simp [calculate_wer, jiwerWer, h, splitWords, splitWordsAux]
  · simp [calculate_cer, jiwerCer, h, pyStrip]

/-- C4 witness: the raw empty reference cleans to the empty string, on which
both rate functions report the error. -/
theorem calculate_rates_empty_reference_witness :
    clean_text "".toList [] [] true = [] ∧
    calculate_wer "".toList "anything".toList [] [] true = none ∧
    calculate_cer "".toList "anything".toList [] [] true = none :=
  ⟨by decide, (calculate_rates_empty_reference _ _ _ _ _ (by decide)).1,
    (calculate_rates_empty_reference _ _ _ _ _ (by decide)).2⟩

theorem findCut_le (s : Str) (lo : Nat) : ∀ co, findCut s lo co ≤ co
  | 0 => Nat.le_refl 0
  | co + 1 => by
      rw [findCut]
      split
      · exact Nat.le_trans (findCut_le s lo co) (Nat.le_succ co)
      · exact Nat.le_refl _

theorem findCut_ge (s : Str) (lo : Nat) : ∀ co, lo ≤ co → lo ≤ findCut s lo co
  | 0, h => by rw [findCut]; exact h
  | co + 1, h => by
      rw [findCut]
      split
      · next hc =>
          have hlt : lo < co + 1 := by
            have h1 := ((Bool.and_eq_true _ _).mp hc).1
            exact of_decide_eq_true h1
          exact findCut_ge s lo co (Nat.lt_succ_iff.mp hlt)
      · exact h

/-- The cut position of one loop iteration is at least 1 when
`window < every` and the remaining string is non-empty: progress is
guaranteed. -/
theorem insertStep_cut_pos (every window : Nat) (hw : window < every) (s : Str)
    (hs : s ≠ []) :
    1 ≤ ((if s.length > every then findCut s (every - window) every else s.length)) := by
  split
  · have h1 : 1 ≤ every - window := Nat.le_sub_of_add_le (by omega)
    exact Nat.le_trans h1 (findCut_ge s (every - window) every (by omega))
  · exact Nat.one_le_iff_ne_zero.mpr (fun h => hs (List.eq_nil_of_length_eq_zero h))

theorem insertLoop_concat (every window : Nat) (hw : window < every) :
    ∀ fuel s, s.length ≤ fuel → concatAll (insertLoop every window fuel s) = s := by
  intro fuel
  induction fuel with
  | zero =>
      intro s hs
      have : s = [] := List.eq_nil_of_length_eq_zero (Nat.le_zero.mp hs)
      subst this; rfl
  | succ n ih =>
      intro s hs
      cases s with
      | nil => rfl
      | cons c cs =>
          show concatAll ((insertStep every window (c :: cs)).1 ::
            insertLoop every window n (insertStep every window (c :: cs)).2) = c :: cs
          have hcut := insertStep_cut_pos every window hw (c :: cs) (List.cons_ne_nil c cs)
          simp only [insertStep, concatAll, List.foldr_cons]
          have hrest : ((c :: cs).drop
              (if (c :: cs).length > every then findCut (c :: cs) (every - window) every
               else (c :: cs).length)).length ≤ n := by
            rw [List.length_drop]; omega
          have := ih _ hrest
          simp only [concatAll] at this
          rw [this, List.take_append_drop]

theorem getD_replicate_lt (n i : Nat) (h : i < n) : (List.replicate n 'b').getD i ' ' = 'b' := by
  induction n generalizing i with
  | zero => omega
  | succ m ih =>
      cases i with
      | zero => rfl
      | succ j => simpa [List.replicate] using ih j (by omega)

theorem findCut_zero_of_no_space (s : Str) (hall : ∀ i, i < s.length → s.getD i ' ' ≠ ' ') :
    ∀ co, co ≤ s.length → findCut s 0 co = 0 := by
  intro co
  induction co with
  | zero => intro _; rw [findCut]
  | succ m ih =>
      intro h
      rw [findCut]
      have hm : s.getD m ' ' ≠ ' ' := hall m (by omega)
      have hb : (s.getD m ' ' == ' ') = false := beq_eq_false_iff_ne.mpr hm
      have hcond : (decide (m + 1 > 0) && !(s.getD m ' ' == ' ')) = true := by
        rw [hb]; simp
      rw [if_pos hcond]
      exact ih (by omega)

/-- With `window < every` the loop terminates (each iteration consumes at
least `every - window ≥ 1` characters) and the chunks concatenate back to
the input; with `window = every` the loop body has a fixpoint on a spaceless
string longer than `every` — the cut position degenerates to `0`, the
emitted part is empty and the remaining string is unchanged, so the Python
`while` loop never terminates there. -/
theorem insert_newlines_progress_concat :
    (∀ (s : Str) (every window : Nat), window < every →
        concatAll (insert_newlines s every window) = s) ∧
    (∀ n : Nat, insertStep n n (List.replicate (n + 1) 'b') = ([], List.replicate (n + 1) 'b')) := by
  constructor
  · intro s every window hw
    exact insertLoop_concat every window hw s.length s (Nat.le_refl _)
  · intro n
    have hlen : (List.replicate (n + 1) 'b').length = n + 1 := by simp
    have hfc : findCut (List.replicate (n + 1) 'b') (n - n) n = 0 := by
      rw [Nat.sub_self]
      refine findCut_zero_of_no_space _ ?_ n (by omega)
      intro i hi
      rw [hlen] at hi
      rw [getD_replicate_lt (n + 1) i hi]
      decide
    simp only [insertStep]
    rw [if_pos (by simp : (List.replicate (n + 1) 'b').length > n)]
    rw [hfc]
    simp

/-- C6 counterexample: with width 10 and margin 3, the input
`"aa bbbbbbbb cc"` is cut in the middle of the 8-character word
`bbbbbbbb` (8 ≤ 10), so a chunk ends inside a word that does not exceed
the width. -/
theorem insert_newlines_width_split_cex :
    insert_newlines "aa bbbbbbbb cc".toList 10 3 = ["aa bbbb".toList, "bbbb cc".toList] ∧
    noMidWordSplits 10 (insert_newlines "aa bbbbbbbb cc".toList 10 3) = false ∧
    brokenWordLen "aa bbbb".toList "bbbb cc".toList = 8 := by decide

theorem findCut_7_10 (s : Str) :
    (s.getD 9 ' ' = ' ' ∧ findCut s 7 10 = 10) ∨
    (s.getD 8 ' ' = ' ' ∧ findCut s 7 10 = 9) ∨
    (s.getD 7 ' ' = ' ' ∧ findCut s 7 10 = 8) ∨
    (s.getD 7 ' ' ≠ ' ' ∧ s.getD 8 ' ' ≠ ' ' ∧ s.getD 9 ' ' ≠ ' ' ∧ findCut s 7 10 = 7) := by
  by_cases h9 : s.getD 9 ' ' = ' '
  · left
    have hb : (s.getD 9 ' ' == ' ') = true := beq_iff_eq.mpr h9
    refine ⟨h9, ?_⟩
    rw [findCut, hb]
    simp
  · have hb9 : (s.getD 9 ' ' == ' ') = false := beq_eq_false_iff_ne.mpr h9
    by_cases h8 : s.getD 8 ' ' = ' '
    · right; left
      have hb : (s.getD 8 ' ' == ' ') = true := beq_iff_eq.mpr h8
      refine ⟨h8, ?_⟩
      rw [findCut, hb9]
      simp only [Bool.not_false, Bool.and_true, decide_True, if_true]
      rw [findCut, hb]
      simp
    · have hb8 : (s.getD 8 ' ' == ' ') = false := beq_eq_false_iff_ne.mpr h8
      by_cases h7 : s.getD 7 ' ' = ' '
      · right; right; left
        have hb : (s.getD 7 ' ' == ' ') = true := beq_iff_eq.mpr h7
        refine ⟨h7, ?_⟩
        rw [findCut, hb9]
        simp only [Bool.not_false, Bool.and_true, decide_True, if_true]
        rw [findCut, hb8]
        simp only [Bool.not_false, Bool.and_true, decide_True, if_true]
        rw [findCut, hb]
        simp
      · have hb7 : (s.getD 7 ' ' == ' ') = false := beq_eq_false_iff_ne.mpr h7
        right; right; right
        refine ⟨h7, h8, h9, ?_⟩
        rw [findCut, hb9]
        simp only [Bool.not_false, Bool.and_true, decide_True, if_true]
        rw [findCut, hb8]
        simp only [Bool.not_false, Bool.and_true, decide_True, if_true]
        rw [findCut, hb7]
        simp only [Bool.not_false, Bool.and_true, decide_True, if_true]
        rw [findCut]
        simp

theorem getLastD_take (s : Str) (c : Nat) (h1 : 1 ≤ c) (h2 : c ≤ s.length) (d : Char) :
    (s.take c).getLastD d = s.getD (c - 1) d := by
  rw [List.getLastD_eq_getLast?, List.getLast?_eq_getElem?, List.getD_eq_getElem?_getD]
  rw [List.length_take, Nat.min_eq_left h2]
  rw [List.getElem?_take_of_lt (by omega)]

theorem headD_drop (s : Str) (c : Nat) (d : Char) : (s.drop c).headD d = s.getD c d := by
  rw [List.headD_eq_head?_getD, List.getD_eq_getElem?_getD, List.head?_eq_getElem?,
    List.getElem?_drop, Nat.add_zero]

theorem getD_drop (s : Str) (m i : Nat) (d : Char) : (s.drop m).getD i d = s.getD (m + i) d := by
  rw [List.getD_eq_getElem?_getD, List.getD_eq_getElem?_getD, List.getElem?_drop]

theorem takeWhile_len_ge1 (l : Str) (h0 : l.headD ' ' ≠ ' ') :
    1 ≤ (l.takeWhile (fun c => !(c == ' '))).length := by
  cases l with
  | nil => simp at h0
  | cons a rest =>
      have : (a == ' ') = false := beq_eq_false_iff_ne.mpr (by simpa using h0)
      simp [List.takeWhile, this]

theorem takeWhile_len_ge3 (l : Str) (hlen : 3 ≤ l.length)
    (h0 : l.getD 0 ' ' ≠ ' ') (h1 : l.getD 1 ' ' ≠ ' ') (h2 : l.getD 2 ' ' ≠ ' ') :
    3 ≤ (l.takeWhile (fun c => !(c == ' '))).length := by
  match l, hlen with
  | a :: b :: c :: rest, _ =>
      have ha : (a == ' ') = false := beq_eq_false_iff_ne.mpr (by simpa using h0)
      have hb : (b == ' ') = false := beq_eq_false_iff_ne.mpr (by simpa using h1)
      have hc : (c == ' ') = false := beq_eq_false_iff_ne.mpr (by simpa using h2)
      simp [List.takeWhile, ha, hb, hc]

theorem headD_reverse (l : Str) (d : Char) : l.reverse.headD d = l.getLastD d := by
  rw [List.headD_eq_head?_getD, List.head?_reverse, List.getLastD_eq_getLast?]

theorem endsMidWord_false_left (chunk rest : Str) (h : chunk.getLastD ' ' = ' ') :
    endsMidWord chunk rest = false := by
  rw [endsMidWord, h]
  simp

theorem endsMidWord_false_right (chunk rest : Str) (h : rest.headD ' ' = ' ') :
    endsMidWord chunk rest = false := by
  rw [endsMidWord, h]
  simp

theorem noMidWordSplits_cons (bound : Nat) (x : Str) (L : List Str) :
    noMidWordSplits bound (x :: L) =
      ((!(endsMidWord x (concatAll L)) || decide (bound < brokenWordLen x (concatAll L))) &&
        noMidWordSplits bound L) := rfl

theorem insertStep_head_ok (s : Str) :
    endsMidWord (insertStep 10 3 s).1 (insertStep 10 3 s).2 = false ∨
    3 < brokenWordLen (insertStep 10 3 s).1 (insertStep 10 3 s).2 := by
  by_cases hlen : s.length > 10
  · have h1 : insertStep 10 3 s = (s.take (findCut s 7 10), s.drop (findCut s 7 10)) := by
      show (s.take (if s.length > 10 then findCut s (10 - 3) 10 else s.length),
            s.drop (if s.length > 10 then findCut s (10 - 3) 10 else s.length)) = _
      rw [if_pos hlen]
    rw [h1]
    rcases findCut_7_10 s with ⟨h, hc⟩ | ⟨h, hc⟩ | ⟨h, hc⟩ | ⟨h7, h8, h9, hc⟩
    · rw [hc]; left
      exact endsMidWord_false_left _ _
        (by rw [getLastD_take s 10 (by omega) (by omega)]; exact h)
    · rw [hc]; left
      exact endsMidWord_false_left _ _
        (by rw [getLastD_take s 9 (by omega) (by omega)]; exact h)
    · rw [hc]; left
      exact endsMidWord_false_left _ _
        (by rw [getLastD_take s 8 (by omega) (by omega)]; exact h)
    · rw [hc]
      by_cases h6 : s.getD 6 ' ' = ' '
      · left
        exact endsMidWord_false_left _ _
          (by rw [getLastD_take s 7 (by omega) (by omega)]; exact h6)
      · right
        have hpart1 : 1 ≤ ((s.take 7).reverse.takeWhile (fun c => !(c == ' '))).length := by
          apply takeWhile_len_ge1
          rw [headD_reverse, getLastD_take s 7 (by omega) (by omega)]
          exact h6
        have hpart2 : 3 ≤ ((s.drop 7).takeWhile (fun c => !(c == ' '))).length := by
          apply takeWhile_len_ge3
          · rw [List.length_drop]; omega
          · rw [getD_drop]; exact h7
          · rw [getD_drop]; exact h8
          · rw [getD_drop]; exact h9
        show 3 < brokenWordLen (s.take 7) (s.drop 7)
        rw [brokenWordLen]
        omega
  · have h1 : insertStep 10 3 s = (s, []) := by
      show (s.take (if s.length > 10 then findCut s (10 - 3) 10 else s.length),
            s.drop (if s.length > 10 then findCut s (10 - 3) 10 else s.length)) = _
      rw [if_neg hlen]
      simp
    rw [h1]
    left
    exact endsMidWord_false_right _ _ rfl

theorem insertLoop_noMidWord : ∀ fuel s, s.length ≤ fuel →
    noMidWordSplits 3 (insertLoop 10 3 fuel s) = true := by
  intro fuel
  induction fuel with
  | zero =>
      intro s hs
      have : s = [] := List.eq_nil_of_length_eq_zero (Nat.le_zero.mp hs)
      subst this; rfl
  | succ n ih =>
      intro s hs
      by_cases hnil : s = []
      · subst hnil; rfl
      · obtain ⟨ch, cs, rfl⟩ := List.exists_cons_of_ne_nil hnil
        have hstep : insertLoop 10 3 (n + 1) (ch :: cs) =
            (insertStep 10 3 (ch :: cs)).1 :: insertLoop 10 3 n (insertStep 10 3 (ch :: cs)).2 :=
          rfl
        rw [hstep]
        have hcut1 : 1 ≤ (if (ch :: cs).length > 10 then findCut (ch :: cs) (10 - 3) 10
            else (ch :: cs).length) :=
          insertStep_cut_pos 10 3 (by omega) (ch :: cs) (List.cons_ne_nil ch cs)
        have hrestlen : ((insertStep 10 3 (ch :: cs)).2).length ≤ n := by
          show ((ch :: cs).drop _).length ≤ n
          rw [List.length_drop]
          omega
        have hconcat : concatAll (insertLoop 10 3 n (insertStep 10 3 (ch :: cs)).2) =
            (insertStep 10 3 (ch :: cs)).2 :=
          insertLoop_concat 10 3 (by omega) n _ hrestlen
        rw [noMidWordSplits_cons, hconcat, ih _ hrestlen, Bool.and_true]
        rcases insertStep_head_ok (ch :: cs) with h | h
        · rw [h]
          rfl
        · rw [decide_eq_true h]
          simp

/-- C6 amended: with width 10 and margin 3, every chunk except the last
either ends at a space boundary or ends inside a word longer than the
margin (3 characters); words of length at most 3 are never split, but words
of length 4 to 10 can be (see the counterexample), so "longer than width"
must be weakened to "longer than margin". -/
theorem insert_newlines_margin_split_bound (s : Str) :
    noMidWordSplits 3 (insert_newlines s 10 3) = true :=
  insertLoop_noMidWord s.length s (Nat.le_refl _)

theorem runLen_take [DecidableEq α] :
    ∀ xs ys : List α, xs.take (runLen xs ys) = ys.take (runLen xs ys)
  | [], _ => rfl
  | _ :: _, [] => rfl
  | x :: xs, y :: ys => by
      show (x :: xs).take (if x = y then runLen xs ys + 1 else 0) =
        (y :: ys).take (if x = y then runLen xs ys + 1 else 0)
      split
      · next h => rw [List.take_succ_cons, List.take_succ_cons, h, runLen_take xs ys]
      · rfl

theorem runLen_le_left [DecidableEq α] : ∀ xs ys : List α, runLen xs ys ≤ xs.length
  | [], _ => Nat.zero_le _
  | _ :: _, [] => Nat.zero_le _
  | x :: xs, y :: ys => by
      show (if x = y then runLen xs ys + 1 else 0) ≤ (x :: xs).length
      split
      · simpa using runLen_le_left xs ys
      · exact Nat.zero_le _

theorem runLen_le_right [DecidableEq α] : ∀ xs ys : List α, runLen xs ys ≤ ys.length
  | [], _ => Nat.zero_le _
  | _ :: _, [] => Nat.zero_le _
  | x :: xs, y :: ys => by
      show (if x = y then runLen xs ys + 1 else 0) ≤ (y :: ys).length
      split
      · simpa using runLen_le_right xs ys
      · exact Nat.zero_le _

theorem foldl_preserve {P : β → Prop} {f : β → α → β} (hf : ∀ b a, P b → P (f b a)) :
    ∀ (l : List α) (b : β), P b → P (List.foldl f b l)
  | [], _, hb => hb
  | a :: l, b, hb => foldl_preserve hf l (f b a) (hf b a hb)

theorem foldl_fix {f : β → α → β} : ∀ (l : List α) (b : β), (∀ a ∈ l, f b a = b) →
    List.foldl f b l = b
  | [], _, _ => rfl
  | a :: l, b, h => by
      rw [List.foldl_cons, h a (by simp)]
      exact foldl_fix l b (fun a ha => h a (by simp [ha]))

/-- The result of `bestMatch` is either the initial `(0, 0, 0)` or records
the exact run length at its own position. -/
theorem bestMatch_spec [DecidableEq α] (xs ys : List α) :
    bestMatch xs ys = (0, 0, 0) ∨
    (bestMatch xs ys).2.2 =
      runLen (xs.drop (bestMatch xs ys).1) (ys.drop (bestMatch xs ys).2.1) := by
  refine foldl_preserve
    (P := fun b : Nat × Nat × Nat =>
      b = (0, 0, 0) ∨ b.2.2 = runLen (xs.drop b.1) (ys.drop b.2.1)) ?_
    (List.range xs.length) (0, 0, 0) (Or.inl rfl)
  intro b i hb
  refine foldl_preserve
    (P := fun b : Nat × Nat × Nat =>
      b = (0, 0, 0) ∨ b.2.2 = runLen (xs.drop b.1) (ys.drop b.2.1)) ?_
    (List.range ys.length) b hb
  intro b2 j hb2
  by_cases hlt : b2.2.2 < runLen (xs.drop i) (ys.drop j)
  · rw [if_pos hlt]
    exact Or.inr rfl
  · rw [if_neg hlt]
    exact hb2

theorem matchBlocksGo_nil_nil [DecidableEq α] (aoff boff : Nat) :
    ∀ fuel, matchBlocksGo fuel ([] : List α) ([] : List α) aoff boff = []
  | 0 => rfl
  | _ + 1 => rfl

/-- Slice invariant: a current slice viewed as a take of a drop of the
original list, shifted inside by `i`. -/
theorem slice_shift {l1 : List α} {xs : List α} {aoff : Nat}
    (hx : xs = (l1.drop aoff).take xs.length) (i : Nat) :
    xs.drop i = (l1.drop (aoff + i)).take (xs.length - i) := by
  conv_lhs => rw [hx]
  rw [List.drop_take, List.drop_drop]

/-- Every block produced by `matchBlocksGo` matches equal slices of the two
original lists, provided the current slices are slices of the originals at
the given offsets. -/
theorem matchBlocksGo_content [DecidableEq α] (l1 l2 : List α) :
    ∀ (fuel : Nat) (xs ys : List α) (aoff boff : Nat),
      xs = (l1.drop aoff).take xs.length → ys = (l2.drop boff).take ys.length →
      ∀ m ∈ matchBlocksGo fuel xs ys aoff boff,
        (l1.drop m.1).take m.2.2 = (l2.drop m.2.1).take m.2.2 := by
  intro fuel
  induction fuel with
  | zero => intro xs ys aoff boff _ _ m hm; simp [matchBlocksGo] at hm
  | succ n ih =>
      intro xs ys aoff boff hx hy m hm
      rw [matchBlocksGo] at hm
      rcases hbdef : bestMatch xs ys with ⟨i, j, k⟩
      rw [hbdef] at hm
      by_cases hk0 : k = 0
      · rw [if_pos (by simpa using hk0)] at hm; simp at hm
      · rw [if_neg (by simpa using hk0)] at hm
        rcases bestMatch_spec xs ys with h0 | hrun
        · rw [hbdef] at h0
          exact absurd (congrArg (fun p : Nat × Nat × Nat => p.2.2) h0) (by simpa using hk0)
        · rw [hbdef] at hrun
          simp only [] at hrun hm
          have hkx : k ≤ xs.length - i := by
            rw [hrun]
            have := runLen_le_left (xs.drop i) (ys.drop j)
            simpa using this
          have hky : k ≤ ys.length - j := by
            rw [hrun]
            have := runLen_le_right (xs.drop i) (ys.drop j)
            simpa using this
          have hik : i + k ≤ xs.length := by omega
          have hjk : j + k ≤ ys.length := by omega
          rcases List.mem_append.mp hm with hm1 | hm2
          · rcases List.mem_append.mp hm1 with hml | hmm
            · refine ih (xs.take i) (ys.take j) aoff boff ?_ ?_ m hml
              · rw [List.length_take, Nat.min_eq_left (by omega)]
                conv_lhs => rw [hx]
                rw [List.take_take, Nat.min_eq_left (by omega)]
              · rw [List.length_take, Nat.min_eq_left (by omega)]
                conv_lhs => rw [hy]
                rw [List.take_take, Nat.min_eq_left (by omega)]
            · have hmeq : m = (aoff + i, boff + j, k) := by simpa using hmm
              subst hmeq
              have e1 : (xs.drop i).take k = (l1.drop (aoff + i)).take k := by
                rw [slice_shift hx, List.take_take, Nat.min_eq_left (by omega)]
              have e2 : (ys.drop j).take k = (l2.drop (boff + j)).take k := by
                rw [slice_shift hy, List.take_take, Nat.min_eq_left (by omega)]
              have e3 : (xs.drop i).take k = (ys.drop j).take k := by
                rw [hrun]
                exact runLen_take _ _
              show (l1.drop (aoff + i)).take k = (l2.drop (boff + j)).take k
              rw [← e1, ← e2]
              exact e3
          · refine ih (xs.drop (i + k)) (ys.drop (j + k))
              (aoff + i + k) (boff + j + k) ?_ ?_ m hm2
            · rw [List.length_drop, slice_shift hx, Nat.add_assoc]
            · rw [List.length_drop, slice_shift hy, Nat.add_assoc]

theorem alignedOk_iff {r1 r2 : List Str} :
    alignedOk r1 r2 = true ↔
      r1.length = r2.length ∧
        ∀ p ∈ r1.zip r2, (p.1 == p.2 || p.2 == gapFill p.1 || p.1 == gapFill p.2) = true := by
  rw [alignedOk, Bool.and_eq_true, List.all_eq_true, beq_iff_eq]

theorem alignedOk_append {r1 r2 s1 s2 : List Str}
    (h1 : alignedOk r1 r2 = true) (h2 : alignedOk s1 s2 = true) :
    alignedOk (r1 ++ s1) (r2 ++ s2) = true := by
  rw [alignedOk_iff] at h1 h2 ⊢
  obtain ⟨hl1, ha1⟩ := h1
  obtain ⟨hl2, ha2⟩ := h2
  refine ⟨by simp [hl1, hl2], ?_⟩
  intro p hp
  rw [List.zip_append hl1] at hp
  rcases List.mem_append.mp hp with h | h
  · exact ha1 p h
  · exact ha2 p h

theorem zip_self_map (g : List Str) : g.zip g = g.map (fun a => (a, a)) := by
  induction g with
  | nil => rfl
  | cons x g ihg => simp [ihg]

theorem zip_map_gap_right (g : List Str) :
    g.zip (g.map gapFill) = g.map (fun a => (a, gapFill a)) := by
  induction g with
  | nil => rfl
  | cons x g ihg => simp [ihg]

theorem zip_map_gap_left (g : List Str) :
    (g.map gapFill).zip g = g.map (fun a => (gapFill a, a)) := by
  induction g with
  | nil => rfl
  | cons x g ihg => simp [ihg]

theorem alignedOk_gap_right (g : List Str) : alignedOk g (g.map gapFill) = true := by
  rw [alignedOk_iff]
  refine ⟨by simp, ?_⟩
  intro p hp
  rw [zip_map_gap_right] at hp
  obtain ⟨a, _, rfl⟩ := List.mem_map.mp hp
  simp

theorem alignedOk_gap_left (g : List Str) : alignedOk (g.map gapFill) g = true := by
  rw [alignedOk_iff]
  refine ⟨by simp, ?_⟩
  intro p hp
  rw [zip_map_gap_left] at hp
  obtain ⟨a, _, rfl⟩ := List.mem_map.mp hp
  simp

theorem alignedOk_self (g : List Str) : alignedOk g g = true := by
  rw [alignedOk_iff]
  refine ⟨rfl, ?_⟩
  intro p hp
  rw [zip_self_map] at hp
  obtain ⟨a, _, rfl⟩ := List.mem_map.mp hp
  simp

theorem eqFold_aligned (l1 l2 : List Str) :
    ∀ (blocks : List (Nat × Nat × Nat)) (res : List Str × List Str) (pe : Nat × Nat),
      (∀ m ∈ blocks, (l1.drop m.1).take m.2.2 = (l2.drop m.2.1).take m.2.2) →
      alignedOk res.1 res.2 = true →
      alignedOk (eqFold l1 l2 blocks res pe).1 (eqFold l1 l2 blocks res pe).2 = true
  | [], _, _, _, hres => hres
  | m :: rest, res, pe, hblocks, hres => by
      rw [eqFold]
      refine eqFold_aligned l1 l2 rest _ _ (fun m' hm' => hblocks m' (by simp [hm'])) ?_
      have hmatch : tokSlice l1 m.1 (m.1 + m.2.2) = tokSlice l2 m.2.1 (m.2.1 + m.2.2) := by
        rw [tokSlice, tokSlice, Nat.add_sub_cancel_left, Nat.add_sub_cancel_left]
        exact hblocks m (by simp)
      refine alignedOk_append (alignedOk_append (alignedOk_append hres ?_) ?_) ?_
      · by_cases hc : pe.1 ≠ m.1
        · rw [if_pos hc, if_pos hc]
          exact alignedOk_gap_right _
        · rw [if_neg hc, if_neg hc]
          rfl
      · by_cases hc : pe.2 ≠ m.2.1
        · rw [if_pos hc, if_pos hc]
          exact alignedOk_gap_left _
        · rw [if_neg hc, if_neg hc]
          rfl
      · rw [hmatch]
        exact alignedOk_self _

/-- C7: the two token sequences built by `equalize` before rejoining always
have equal length, and at every position either the entries are the same
matched token, or one side is an underscore gap-filler whose length equals
the length of the real token opposite it. -/
theorem equalize_alignment_invariant (s1 s2 : Str) :
    alignedOk (equalizeTokens (tokenize s1) (tokenize s2)).1
      (equalizeTokens (tokenize s1) (tokenize s2)).2 = true := by
  rw [equalizeTokens]
  refine eqFold_aligned _ _ _ _ _ ?_ (by decide)
  intro m hm
  rcases List.mem_append.mp hm with h | h
  · exact matchBlocksGo_content (tokenize s1) (tokenize s2) _ _ _ 0 0 (by simp) (by simp) m h
  · have hme : m = ((tokenize s1).length, (tokenize s2).length, 0) := by simpa using h
    subst hme
    simp

theorem runLen_self [DecidableEq α] : ∀ l : List α, runLen l l = l.length
  | [] => rfl
  | x :: l => by
      show (if x = x then runLen l l + 1 else 0) = l.length + 1
      rw [if_pos rfl, runLen_self l]

theorem bestMatch_self [DecidableEq α] (l : List α) (hne : l ≠ []) :
    bestMatch l l = (0, 0, l.length) := by
  obtain ⟨m, hm⟩ : ∃ m, l.length = m + 1 := by
    cases l with
    | nil => exact absurd rfl hne
    | cons x t => exact ⟨t.length, rfl⟩
  have hstepfix : ∀ (i : Nat) (acc : Nat × Nat × Nat), acc.2.2 = l.length →
      ∀ (L : List Nat), L.foldl
        (fun acc j => if acc.2.2 < runLen (l.drop i) (l.drop j)
          then (i, j, runLen (l.drop i) (l.drop j)) else acc) acc = acc := by
    intro i acc hacc L
    refine foldl_fix _ _ ?_
    intro j _
    rw [if_neg]
    rw [hacc]
    have h1 := runLen_le_left (l.drop i) (l.drop j)
    rw [List.length_drop] at h1
    omega
  have hstepfix0 : ∀ (acc : Nat × Nat × Nat), acc.2.2 = l.length →
      ∀ (L : List Nat), L.foldl
        (fun acc j => if acc.2.2 < runLen l (l.drop j)
          then ((0 : Nat), j, runLen l (l.drop j)) else acc) acc = acc := by
    intro acc hacc L
    refine foldl_fix _ _ ?_
    intro j _
    rw [if_neg]
    rw [hacc]
    have h1 := runLen_le_left l (l.drop j)
    omega
  have hrange : List.range l.length = 0 :: List.map Nat.succ (List.range m) := by
    rw [hm, List.range_succ_eq_map]
  rw [bestMatch, hrange, List.foldl_cons]
  rw [List.foldl_cons]
  simp only [List.drop_zero, runLen_self]
  rw [if_pos (by omega)]
  rw [hstepfix0 (0, 0, l.length) rfl]
  refine foldl_fix _ _ ?_
  intro i _
  exact hstepfix i (0, 0, l.length) rfl _

theorem matchBlocks_self [DecidableEq α] (l : List α) (hne : l ≠ []) :
    matchBlocks l l = [(0, 0, l.length)] := by
  obtain ⟨m, hm⟩ : ∃ m, l.length + l.length = m + 1 := by
    cases l with
    | nil => exact absurd rfl hne
    | cons x t => exact ⟨t.length + (x :: t).length, by simp; omega⟩
  rw [matchBlocks, hm, matchBlocksGo, bestMatch_self l hne]
  simp only []
  rw [if_neg (Nat.pos_iff_ne_zero.mp (List.length_pos.mpr hne))]
  simp [matchBlocksGo_nil_nil]

theorem equalizeTokens_self (l : List Str) (hne : l ≠ []) :
    equalizeTokens l l = (l, l) := by
  rw [equalizeTokens, matchBlocks_self l hne]
  show eqFold l l ((0, 0, l.length) :: [(l.length, l.length, 0)]) ([], []) (0, 0) = (l, l)
  rw [eqFold, eqFold, eqFold]
  simp [tokSlice]

theorem splitOnSpace_ne_nil : ∀ t : Str, splitOnSpace t ≠ []
  | [] => by simp [splitOnSpace]
  | c :: rest => by
      rw [splitOnSpace]
      split
      · exact List.cons_ne_nil _ _
      · rcases h : splitOnSpace rest with _ | ⟨t, ts⟩ <;> exact List.cons_ne_nil _ _

theorem joinSpace_splitOnSpace : ∀ t : Str, joinSpace (splitOnSpace t) = t
  | [] => rfl
  | c :: rest => by
      rw [splitOnSpace]
      have hne := splitOnSpace_ne_nil rest
      have IH := joinSpace_splitOnSpace rest
      obtain ⟨x, xs, hx⟩ := List.exists_cons_of_ne_nil hne
      by_cases hc : c = ' '
      · rw [if_pos hc, hc]
        rw [hx] at IH ⊢
        show [] ++ ' ' :: joinSpace (x :: xs) = ' ' :: rest
        rw [IH]
        rfl
      · rw [if_neg hc]
        rw [hx] at IH ⊢
        show joinSpace ((c :: x) :: xs) = c :: rest
        cases xs with
        | nil =>
            show c :: x = c :: rest
            rw [show joinSpace [x] = x from rfl] at IH
            rw [IH]
        | cons y ys =>
            show (c :: x) ++ ' ' :: joinSpace (y :: ys) = c :: rest
            rw [show joinSpace (x :: y :: ys) = x ++ ' ' :: joinSpace (y :: ys) from rfl] at IH
            rw [← IH]
            rfl

theorem joinSpace_tokenize (s : Str) : joinSpace (tokenize s) = collapseWsAux s false := by
  rw [tokenize, joinSpace_splitOnSpace]

theorem tokenize_ne_nil (s : Str) : tokenize s ≠ [] := splitOnSpace_ne_nil _

/-- All whitespace characters of the string are plain spaces. -/
def wsOnlySpace (s : Str) : Bool := s.all (fun c => !pyIsSpace c || c == ' ')

/-- No two adjacent characters are both spaces. -/
def noTwoSpaces : Str → Bool
  | a :: b :: rest => !(a == ' ' && b == ' ') && noTwoSpaces (b :: rest)
  | _ => true

/-- Normalized single-spaced string: the only whitespace is the plain space,
never two in a row and not at either end — the shape of a join of non-empty
whitespace-free words with single spaces. -/
def normStr (s : Str) : Bool :=
  wsOnlySpace s && noTwoSpaces s && !(s.head? == some ' ') && !(s.getLast? == some ' ')

theorem noTwoSpaces_tail : ∀ {c : Char} {rest : Str},
    noTwoSpaces (c :: rest) = true → noTwoSpaces rest = true
  | _, [], _ => rfl
  | _, _ :: _, h => ((Bool.and_eq_true _ _).mp h).2

theorem collapseWsAux_fix :
    ∀ s : Str, wsOnlySpace s = true → noTwoSpaces s = true →
      (s.getLast? == some ' ') = false →
      collapseWsAux s false = s ∧ (s.head? ≠ some ' ' → collapseWsAux s true = s)
  | [], _, _, _ => ⟨rfl, fun _ => rfl⟩
  | c :: rest, hws, hnts, hlast => by
      have hwsrest : wsOnlySpace rest = true := by
        rw [wsOnlySpace] at hws ⊢
        rw [List.all_cons] at hws
        exact ((Bool.and_eq_true _ _).mp hws).2
      by_cases hsp : pyIsSpace c = true
      · have hc : c = ' ' := by
          have hmem := List.all_eq_true.mp hws c (by simp)
          rw [hsp] at hmem
          simpa using hmem
        subst hc
        cases rest with
        | nil => simp at hlast
        | cons d rest2 =>
            have hd : (d == ' ') = false := by
              have h1 := ((Bool.and_eq_true _ _).mp hnts).1
              simpa using h1
            have hdne : d ≠ ' ' := by simpa using hd
            have IH := collapseWsAux_fix (d :: rest2) hwsrest (noTwoSpaces_tail hnts)
              (by rwa [List.getLast?_cons_cons] at hlast)
            constructor
            · show ' ' :: collapseWsAux (d :: rest2) true = ' ' :: d :: rest2
              rw [IH.2 (by simpa using hdne)]
            · intro hh
              exact absurd rfl hh
      · have hcol : ∀ b : Bool, collapseWsAux (c :: rest) b = c :: collapseWsAux rest false := by
          intro b
          rw [collapseWsAux, if_neg (by simpa using hsp)]
        cases rest with
        | nil =>
            refine ⟨?_, fun _ => ?_⟩ <;> rw [hcol] <;> rfl
        | cons d rest2 =>
            have IH := collapseWsAux_fix (d :: rest2) hwsrest (noTwoSpaces_tail hnts)
              (by rwa [List.getLast?_cons_cons] at hlast)
            refine ⟨?_, fun _ => ?_⟩ <;> rw [hcol, IH.1]

/-- C8: on a normalized single-spaced string (only plain single spaces, none
leading or trailing), `equalize` applied to the string and itself returns
the pair `(s, s)`. -/
theorem equalize_self_identity (s : Str) (h : normStr s = true) :
    equalize s s = (s, s) := by
  rw [normStr] at h
  have p1 := (Bool.and_eq_true _ _).mp h
  have p2 := (Bool.and_eq_true _ _).mp p1.1
  have p3 := (Bool.and_eq_true _ _).mp p2.1
  have hws : wsOnlySpace s = true := p3.1
  have hnts : noTwoSpaces s = true := p3.2
  have hlast : (s.getLast? == some ' ') = false := by
    have := p1.2
    simpa using this
  have hcol : collapseWsAux s false = s := (collapseWsAux_fix s hws hnts hlast).1
  rw [equalize]
  rw [equalizeTokens_self (tokenize s) (tokenize_ne_nil s)]
  show (untokenize (tokenize s), untokenize (tokenize s)) = (s, s)
  rw [show untokenize (tokenize s) = joinSpace (tokenize s) from rfl, joinSpace_tokenize, hcol]

/-- C8 witness: the identity round-trip at the normalized string `"a b"`. -/
theorem equalize_self_identity_witness :
    normStr "a b".toList = true ∧
      equalize "a b".toList "a b".toList = ("a b".toList, "a b".toList) :=
  ⟨by decide, equalize_self_identity "a b".toList (by decide)⟩

theorem char_toNat_inj {a b : Char} (h : a.toNat = b.toNat) : a = b := by
  have h2 := congrArg Char.ofNat h
  rwa [Char.ofNat_toNat, Char.ofNat_toNat] at h2

theorem char_eq_iff_toNat {a b : Char} : a = b ↔ a.toNat = b.toNat :=
  ⟨fun h => h ▸ rfl, char_toNat_inj⟩

theorem toNat_ofNat_valid {n : Nat} (h : n.isValidChar) : (Char.ofNat n).toNat = n := by
  rw [Char.ofNat, dif_pos h]
  rfl

/-- `Char.toLower` either shifts an upper-case ASCII letter by 32 or leaves
the character unchanged. -/
theorem pyLowerChar_cases (c : Char) :
    ((pyLowerChar c).toNat = c.toNat + 32 ∧ 65 ≤ c.toNat ∧ c.toNat ≤ 90) ∨ pyLowerChar c = c := by
  rw [pyLowerChar, Char.toLower]
  split
  · next h => exact Or.inl ⟨toNat_ofNat_valid (Or.inl (by omega)), by omega⟩
  · exact Or.inr rfl

theorem pyLowerChar_space_iff {c : Char} : pyLowerChar c = ' ' ↔ c = ' ' := by
  constructor
  · intro h
    rcases pyLowerChar_cases c with ⟨h1, h2, _⟩ | h1
    · exfalso
      rw [h] at h1
      have hs : (' ' : Char).toNat = 32 := rfl
      omega
    · rwa [h1] at h
  · intro h
    subst h
    decide

theorem pyIsSpace_iff_toNat {c : Char} :
    pyIsSpace c = true ↔ (c.toNat = 32 ∨ c.toNat = 9 ∨ c.toNat = 10 ∨ c.toNat = 13 ∨
      c.toNat = 11 ∨ c.toNat = 12) := by
  rw [pyIsSpace]
  simp only [Bool.or_eq_true, beq_iff_eq]
  rw [char_eq_iff_toNat (b := ' '), char_eq_iff_toNat (b := '\t'),
      char_eq_iff_toNat (b := '\n'), char_eq_iff_toNat (b := '\r')]
  have h1 : (' ' : Char).toNat = 32 := rfl
  have h2 : ('\t' : Char).toNat = 9 := rfl
  have h3 : ('\n' : Char).toNat = 10 := rfl
  have h4 : ('\r' : Char).toNat = 13 := rfl
  rw [h1, h2, h3, h4]
  tauto

theorem pyIsSpace_pyLowerChar (c : Char) : pyIsSpace (pyLowerChar c) = pyIsSpace c := by
  rcases pyLowerChar_cases c with ⟨h1, h2, h3⟩ | h1
  · have ha : pyIsSpace c = false := by
      rw [← Bool.not_eq_true, pyIsSpace_iff_toNat]
      omega
    have hb : pyIsSpace (pyLowerChar c) = false := by
      rw [← Bool.not_eq_true, pyIsSpace_iff_toNat]
      omega
    rw [ha, hb]
  · rw [h1]

theorem pyLowerChar_idem (c : Char) : pyLowerChar (pyLowerChar c) = pyLowerChar c := by
  rcases pyLowerChar_cases c with ⟨h1, h2, h3⟩ | h1
  · rcases pyLowerChar_cases (pyLowerChar c) with ⟨g1, g2, g3⟩ | g1
    · omega
    · exact g1
  · rw [h1, h1]

theorem pyLower_idem (s : Str) : pyLower (pyLower s) = pyLower s := by
  show (s.map pyLowerChar).map pyLowerChar = s.map pyLowerChar
  rw [List.map_map]
  exact List.map_congr_left (fun c _ => pyLowerChar_idem c)

/-- Words produced by `splitWords` are non-empty and contain no whitespace. -/
theorem splitWordsAux_wf : ∀ (s acc : Str), (∀ c ∈ acc, pyIsSpace c = false) →
    ∀ w ∈ splitWordsAux s acc, w ≠ [] ∧ ∀ c ∈ w, pyIsSpace c = false
  | [], acc, hacc, w, hw => by
      rw [splitWordsAux] at hw
      split at hw
      · simp at hw
      · next hne =>
          have : w = acc.reverse := by simpa using hw
          subst this
          refine ⟨by simpa using hne, ?_⟩
          intro c hc
          exact hacc c (by simpa using hc)
  | b :: rest, acc, hacc, w, hw => by
      rw [splitWordsAux] at hw
      split at hw
      · split at hw
        · exact splitWordsAux_wf rest [] (by simp) w hw
        · next hne =>
            rcases List.mem_cons.mp hw with h | h
            · subst h
              refine ⟨by simpa using hne, ?_⟩
              intro c hc
              exact hacc c (by simpa using hc)
            · exact splitWordsAux_wf rest [] (by simp) w h
      · next hbs =>
          refine splitWordsAux_wf rest (b :: acc) ?_ w hw
          intro c hc
          rcases List.mem_cons.mp hc with h | h
          · subst h
            simpa using hbs
          · exact hacc c h

theorem splitWords_wf (s : Str) : ∀ w ∈ splitWords s, w ≠ [] ∧ ∀ c ∈ w, pyIsSpace c = false :=
  splitWordsAux_wf s [] (by simp)

/-- Characters of a `splitOnSpace` piece come from the string and are not
spaces. -/
theorem splitOnSpace_chars : ∀ (s : Str), ∀ w ∈ splitOnSpace s, ∀ c ∈ w, c ∈ s ∧ c ≠ ' '
  | [], w, hw, c, hc => by
      have : w = [] := by simpa [splitOnSpace] using hw
      subst this
      simp at hc
  | b :: rest, w, hw, c, hc => by
      rw [splitOnSpace] at hw
      split at hw
      · rcases List.mem_cons.mp hw with h | h
        · subst h; simp at hc
        · have := splitOnSpace_chars rest w h c hc
          exact ⟨by simp [this.1], this.2⟩
      · next hb =>
          rcases hsp : splitOnSpace rest with _ | ⟨t, ts⟩
          · exact absurd hsp (splitOnSpace_ne_nil rest)
          · rw [hsp] at hw
            rcases List.mem_cons.mp hw with h | h
            · subst h
              rcases List.mem_cons.mp hc with h2 | h2
              · subst h2; exact ⟨by simp, hb⟩
              · have := splitOnSpace_chars rest t (by rw [hsp]; simp) c h2
                exact ⟨by simp [this.1], this.2⟩
            · have := splitOnSpace_chars rest w (by rw [hsp]; simp [h]) c hc
              exact ⟨by simp [this.1], this.2⟩

theorem splitOnSpace_pieces_ne :
    ∀ s : Str, noTwoSpaces s = true → (s.getLast? == some ' ') = false →
      ((s ≠ [] → s.head? ≠ some ' ' → ∀ w ∈ splitOnSpace s, w ≠ []) ∧
       ∀ w ∈ (splitOnSpace s).tail, w ≠ [])
  | [], _, _ => ⟨fun h => absurd rfl h, by simp [splitOnSpace]⟩
  | c :: rest, hnts, hlast => by
      by_cases hc : c = ' '
      · subst hc
        have hrestne : rest ≠ [] := by
          intro h
          subst h
          simp at hlast
        obtain ⟨d, r2, hd⟩ := List.exists_cons_of_ne_nil hrestne
        have hdne : d ≠ ' ' := by
          rw [hd] at hnts
          have h1 := ((Bool.and_eq_true _ _).mp hnts).1
          simpa using h1
        have hlast2 : (rest.getLast? == some ' ') = false := by
          rw [hd] at hlast ⊢
          rwa [List.getLast?_cons_cons] at hlast
        have htail := splitOnSpace_pieces_ne rest (noTwoSpaces_tail hnts) hlast2
        constructor
        · intro _ hh
          exact absurd rfl hh
        · show ∀ w ∈ (([] :: splitOnSpace rest) : List Str).tail, w ≠ []
          intro w hw
          refine htail.1 hrestne ?_ w (by simpa using hw)
          rw [hd]
          simpa using hdne
      · have hpieces : splitOnSpace (c :: rest) =
            (c :: (splitOnSpace rest).headD []) :: (splitOnSpace rest).tail := by
          rw [splitOnSpace, if_neg hc]
          rcases hsp : splitOnSpace rest with _ | ⟨t, ts⟩
          · exact absurd hsp (splitOnSpace_ne_nil rest)
          · simp
        have hlast2 : ((rest).getLast? == some ' ') = false := by
          cases hr : rest with
          | nil => simp
          | cons d r2 =>
              rw [hr] at hlast
              rwa [List.getLast?_cons_cons] at hlast
        have htail := splitOnSpace_pieces_ne rest (noTwoSpaces_tail hnts) hlast2
        rw [hpieces]
        constructor
        · intro _ _ w hw
          rcases List.mem_cons.mp hw with h | h
          · subst h
            exact List.cons_ne_nil _ _
          · exact htail.2 w h
        · intro w hw
          exact htail.2 w (by simpa using hw)

theorem splitWordsAux_nows : ∀ (w acc : Str), (∀ c ∈ w, pyIsSpace c = false) →
    acc.reverse ++ w ≠ [] → splitWordsAux w acc = [acc.reverse ++ w]
  | [], acc, _, hne => by
      rw [splitWordsAux, if_neg]
      · simp
      · intro h
        subst h
        simp at hne
  | c :: rest, acc, hws, _ => by
      rw [splitWordsAux, if_neg (by simpa using hws c (by simp))]
      rw [splitWordsAux_nows rest (c :: acc) (fun d hd => hws d (by simp [hd])) (by simp)]
      simp

theorem splitWordsAux_word_sep : ∀ (w acc rest : Str), (∀ c ∈ w, pyIsSpace c = false) →
    acc.reverse ++ w ≠ [] →
    splitWordsAux (w ++ ' ' :: rest) acc = (acc.reverse ++ w) :: splitWords rest
  | [], acc, rest, _, hne => by
      show splitWordsAux (' ' :: rest) acc = _
      rw [splitWordsAux, if_pos (by decide), if_neg]
      · simp [splitWords]
      · intro h
        subst h
        simp at hne
  | c :: w2, acc, rest, hws, _ => by
      show splitWordsAux (c :: (w2 ++ ' ' :: rest)) acc = _
      rw [splitWordsAux, if_neg (by simpa using hws c (by simp))]
      rw [splitWordsAux_word_sep w2 (c :: acc) rest (fun d hd => hws d (by simp [hd])) (by simp)]
      simp

theorem splitWords_joinSpace : ∀ ws : List Str,
    (∀ w ∈ ws, w ≠ [] ∧ ∀ c ∈ w, pyIsSpace c = false) →
    splitWords (joinSpace ws) = ws
  | [], _ => rfl
  | [w], h => by
      show splitWords w = [w]
      rw [splitWords, splitWordsAux_nows w [] (h w (by simp)).2 (by simpa using (h w (by simp)).1)]
      simp
  | w :: w2 :: rest, h => by
      show splitWords (w ++ ' ' :: joinSpace (w2 :: rest)) = _
      rw [splitWords,
        splitWordsAux_word_sep w [] _ (h w (by simp)).2 (by simpa using (h w (by simp)).1)]
      rw [show splitWords (joinSpace (w2 :: rest)) = w2 :: rest from
        splitWords_joinSpace (w2 :: rest) (fun x hx => h x (by simp [hx]))]
      simp

/-- On a normalized string, splitting into words and rejoining with single
spaces is the identity. -/
theorem joinSpace_splitWords_of_norm (s : Str) (h : normStr s = true) :
    joinSpace (splitWords s) = s := by
  by_cases hs : s = []
  · subst hs
    rfl
  · rw [normStr] at h
    have p1 := (Bool.and_eq_true _ _).mp h
    have p2 := (Bool.and_eq_true _ _).mp p1.1
    have p3 := (Bool.and_eq_true _ _).mp p2.1
    have hws : wsOnlySpace s = true := p3.1
    have hnts : noTwoSpaces s = true := p3.2
    have hhead : s.head? ≠ some ' ' := by
      have := p2.2
      simpa using this
    have hlastB : (s.getLast? == some ' ') = false := by
      have := p1.2
      simpa using this
    have hwf : ∀ w ∈ splitOnSpace s, w ≠ [] ∧ ∀ c ∈ w, pyIsSpace c = false := by
      intro w hw
      refine ⟨(splitOnSpace_pieces_ne s hnts hlastB).1 hs hhead w hw, ?_⟩
      intro c hc
      have hcs := splitOnSpace_chars s w hw c hc
      rw [← Bool.not_eq_true]
      intro hsp
      have := List.all_eq_true.mp hws c hcs.1
      rw [hsp] at this
      exact hcs.2 (by simpa using this)
    have hjoin : joinSpace (splitOnSpace s) = s := joinSpace_splitOnSpace s
    have hsplit : splitWords s = splitOnSpace s := by
      conv_lhs => rw [← hjoin]
      rw [splitWords_joinSpace _ hwf]
    rw [hsplit, hjoin]

theorem noTwoSpaces_of_noSpace : ∀ l : Str, (∀ c ∈ l, c ≠ ' ') → noTwoSpaces l = true
  | [], _ => rfl
  | [_], _ => rfl
  | a :: b :: l, h => by
      show (!(a == ' ' && b == ' ') && noTwoSpaces (b :: l)) = true
      refine (Bool.and_eq_true _ _).mpr ⟨?_, noTwoSpaces_of_noSpace (b :: l)
        (fun c hc => h c (by simp [hc]))⟩
      have : (a == ' ') = false := beq_eq_false_iff_ne.mpr (h a (by simp))
      rw [this]
      rfl

theorem noTwoSpaces_append : ∀ (x y : Str), noTwoSpaces x = true → noTwoSpaces y = true →
    (x.getLast? = some ' ' → y.head? ≠ some ' ') → noTwoSpaces (x ++ y) = true
  | [], _, _, hy, _ => hy
  | [a], y, _, hy, hb => by
      cases y with
      | nil => rfl
      | cons c y2 =>
          show (!(a == ' ' && c == ' ') && noTwoSpaces (c :: y2)) = true
          refine (Bool.and_eq_true _ _).mpr ⟨?_, hy⟩
          by_cases ha : a = ' '
          · have hc : c ≠ ' ' := by
              have := hb (by rw [ha]; rfl)
              intro h
              exact this (by subst h; rfl)
            have : (c == ' ') = false := beq_eq_false_iff_ne.mpr hc
            rw [this]
            simp
          · have : (a == ' ') = false := beq_eq_false_iff_ne.mpr ha
            rw [this]
            rfl
  | a :: b :: x2, y, hx, hy, hb => by
      show (!(a == ' ' && b == ' ') && noTwoSpaces (b :: x2 ++ y)) = true
      refine (Bool.and_eq_true _ _).mpr ⟨((Bool.and_eq_true _ _).mp hx).1, ?_⟩
      refine noTwoSpaces_append (b :: x2) y ((Bool.and_eq_true _ _).mp hx).2 hy ?_
      intro h
      exact hb (by rwa [List.getLast?_cons_cons])

theorem joinSpace_ne_nil : ∀ (w : Str) (ws : List Str), w ≠ [] → joinSpace (w :: ws) ≠ []
  | w, [], hw => by simpa using hw
  | w, w2 :: rest, _ => by
      show w ++ ' ' :: joinSpace (w2 :: rest) ≠ []
      simp

theorem joinSpace_head : ∀ (w : Str) (ws : List Str), w ≠ [] →
    (joinSpace (w :: ws)).head? = w.head?
  | _, [], _ => rfl
  | w, w2 :: rest, hw => by
      show (w ++ ' ' :: joinSpace (w2 :: rest)).head? = w.head?
      exact List.head?_append_of_ne_nil _ hw

theorem wf_no_space {w : Str} (hwf : w ≠ [] ∧ ∀ c ∈ w, pyIsSpace c = false) :
    ∀ c ∈ w, c ≠ ' ' := by
  intro c hc he
  have := hwf.2 c hc
  rw [he] at this
  simp [pyIsSpace] at this

theorem joinSpace_wsOnly : ∀ ws : List Str,
    (∀ w ∈ ws, w ≠ [] ∧ ∀ c ∈ w, pyIsSpace c = false) →
    wsOnlySpace (joinSpace ws) = true
  | [], _ => rfl
  | [w], h => by
      show wsOnlySpace w = true
      rw [wsOnlySpace, List.all_eq_true]
      intro c hc
      rw [(h w (by simp)).2 c hc]
      rfl
  | w :: w2 :: rest, h => by
      show wsOnlySpace (w ++ ' ' :: joinSpace (w2 :: rest)) = true
      rw [wsOnlySpace, List.all_eq_true]
      intro c hc
      rcases List.mem_append.mp hc with h1 | h1
      · rw [(h w (by simp)).2 c h1]
        rfl
      · rcases List.mem_cons.mp h1 with h2 | h2
        · subst h2
          rfl
        · have := joinSpace_wsOnly (w2 :: rest) (fun x hx => h x (by simp [hx]))
          rw [wsOnlySpace, List.all_eq_true] at this
          exact this c h2

theorem joinSpace_noTwo : ∀ ws : List Str,
    (∀ w ∈ ws, w ≠ [] ∧ ∀ c ∈ w, pyIsSpace c = false) →
    noTwoSpaces (joinSpace ws) = true
  | [], _ => rfl
  | [w], h => by
      show noTwoSpaces w = true
      exact noTwoSpaces_of_noSpace w (wf_no_space (h w (by simp)))
  | w :: w2 :: rest, h => by
      show noTwoSpaces (w ++ ' ' :: joinSpace (w2 :: rest)) = true
      have hJ := joinSpace_noTwo (w2 :: rest) (fun x hx => h x (by simp [hx]))
      refine noTwoSpaces_append w (' ' :: joinSpace (w2 :: rest))
        (noTwoSpaces_of_noSpace w (wf_no_space (h w (by simp)))) ?_ ?_
      · obtain ⟨d, J2, hd⟩ := List.exists_cons_of_ne_nil
          (joinSpace_ne_nil w2 rest (h w2 (by simp)).1)
        rw [hd]
        show (!(' ' == ' ' && d == ' ') && noTwoSpaces (d :: J2)) = true
        have hdw : d ≠ ' ' := by
          have hh := joinSpace_head w2 rest (h w2 (by simp)).1
          rw [hd] at hh
          refine wf_no_space (h w2 (by simp)) d (List.mem_of_mem_head? ?_)
          show w2.head? = some d
          rw [← hh]
          rfl
        have hdb : (d == ' ') = false := beq_eq_false_iff_ne.mpr hdw
        refine (Bool.and_eq_true _ _).mpr ⟨by rw [hdb]; decide, by rwa [hd] at hJ⟩
      · intro hlw
        exact absurd (List.mem_of_mem_getLast? (by rw [hlw]; rfl))
          (fun hmem => wf_no_space (h w (by simp)) ' ' hmem rfl)

theorem joinSpace_head_not_space (ws : List Str)
    (h : ∀ w ∈ ws, w ≠ [] ∧ ∀ c ∈ w, pyIsSpace c = false) :
    ((joinSpace ws).head? == some ' ') = false := by
  cases ws with
  | nil => rfl
  | cons w rest =>
      rw [joinSpace_head w rest (h w (by simp)).1]
      obtain ⟨d, w2, hdw⟩ := List.exists_cons_of_ne_nil (h w (by simp)).1
      have hdm : d ∈ w := by rw [hdw]; simp
      have hdne : d ≠ ' ' := wf_no_space (h w (by simp)) d hdm
      rw [hdw]
      show ((some d : Option Char) == some ' ') = false
      simpa using hdne

theorem joinSpace_last_not_space : ∀ ws : List Str,
    (∀ w ∈ ws, w ≠ [] ∧ ∀ c ∈ w, pyIsSpace c = false) →
    ((joinSpace ws).getLast? == some ' ') = false
  | [], _ => rfl
  | [w], h => by
      show (w.getLast? == some ' ') = false
      rcases hl : w.getLast? with _ | c
      · rfl
      · have hcm : c ∈ w := List.mem_of_mem_getLast? (by rw [hl]; rfl)
        have hcne := wf_no_space (h w (by simp)) c hcm
        simpa using hcne
  | w :: w2 :: rest, h => by
      show ((w ++ ' ' :: joinSpace (w2 :: rest)).getLast? == some ' ') = false
      rw [List.getLast?_append_of_ne_nil _ (by simp)]
      obtain ⟨d, J2, hd⟩ := List.exists_cons_of_ne_nil
        (joinSpace_ne_nil w2 rest (h w2 (by simp)).1)
      rw [hd, List.getLast?_cons_cons, ← hd]
      exact joinSpace_last_not_space (w2 :: rest) (fun x hx => h x (by simp [hx]))

/-- Joining well-formed words (non-empty, whitespace-free) with single
spaces yields a normalized string. -/
theorem normStr_joinSpace (ws : List Str)
    (h : ∀ w ∈ ws, w ≠ [] ∧ ∀ c ∈ w, pyIsSpace c = false) :
    normStr (joinSpace ws) = true := by
  rw [normStr, joinSpace_wsOnly ws h, joinSpace_noTwo ws h, joinSpace_head_not_space ws h,
    joinSpace_last_not_space ws h]
  rfl

theorem noTwoSpaces_map_lower : ∀ s : Str, noTwoSpaces s = true → noTwoSpaces (pyLower s) = true
  | [], _ => rfl
  | [_], _ => rfl
  | a :: b :: rest, h => by
      show (!(pyLowerChar a == ' ' && pyLowerChar b == ' ') &&
        noTwoSpaces (pyLowerChar b :: List.map pyLowerChar rest)) = true
      refine (Bool.and_eq_true _ _).mpr ⟨?_, ?_⟩
      · have h1 := ((Bool.and_eq_true _ _).mp h).1
        by_cases ha : pyLowerChar a = ' '
        · have ha2 : a = ' ' := pyLowerChar_space_iff.mp ha
          by_cases hb : pyLowerChar b = ' '
          · have hb2 : b = ' ' := pyLowerChar_space_iff.mp hb
            rw [ha2, hb2] at h1
            simp at h1
          · rw [beq_eq_false_iff_ne.mpr hb]
            simp
        · rw [beq_eq_false_iff_ne.mpr ha]
          rfl
      · exact noTwoSpaces_map_lower (b :: rest) ((Bool.and_eq_true _ _).mp h).2

theorem wsOnly_map_lower (s : Str) (h : wsOnlySpace s = true) :
    wsOnlySpace (pyLower s) = true := by
  rw [wsOnlySpace, List.all_eq_true] at h ⊢
  intro c hc
  rw [pyLower] at hc
  obtain ⟨a, ha, rfl⟩ := List.mem_map.mp hc
  have hcond := h a ha
  by_cases hsp : pyIsSpace a = true
  · have ha2 : a = ' ' := by
      rcases (Bool.or_eq_true _ _).mp hcond with h1 | h1
      · rw [hsp] at h1
        simp at h1
      · simpa using h1
    subst ha2
    decide
  · have hf : pyIsSpace (pyLowerChar a) = false := by
      rw [pyIsSpace_pyLowerChar]
      simpa using hsp
    rw [hf]
    rfl

theorem head_map_lower (s : Str) (h : (s.head? == some ' ') = false) :
    ((pyLower s).head? == some ' ') = false := by
  rw [pyLower, List.head?_map]
  rcases hh : s.head? with _ | c
  · rfl
  · rw [hh] at h
    show ((some (pyLowerChar c) : Option Char) == some ' ') = false
    refine beq_eq_false_iff_ne.mpr ?_
    intro he
    have h1 : pyLowerChar c = ' ' := by simpa using he
    have h2 : c = ' ' := pyLowerChar_space_iff.mp h1
    subst h2
    simp at h

theorem last_map_lower (s : Str) (h : (s.getLast? == some ' ') = false) :
    ((pyLower s).getLast? == some ' ') = false := by
  rw [pyLower, List.getLast?_map]
  rcases hh : s.getLast? with _ | c
  · rfl
  · rw [hh] at h
    show ((some (pyLowerChar c) : Option Char) == some ' ') = false
    refine beq_eq_false_iff_ne.mpr ?_
    intro he
    have h1 : pyLowerChar c = ' ' := by simpa using he
    have h2 : c = ' ' := pyLowerChar_space_iff.mp h1
    subst h2
    simp at h

/-- Lowercasing preserves normalization. -/
theorem normStr_pyLower (s : Str) (h : normStr s = true) : normStr (pyLower s) = true := by
  rw [normStr] at h ⊢
  have p1 := (Bool.and_eq_true _ _).mp h
  have p2 := (Bool.and_eq_true _ _).mp p1.1
  have p3 := (Bool.and_eq_true _ _).mp p2.1
  rw [wsOnly_map_lower s p3.1, noTwoSpaces_map_lower s p3.2]
  have hh : ((pyLower s).head? == some ' ') = false := head_map_lower s (by simpa using p2.2)
  have hl : ((pyLower s).getLast? == some ' ') = false := last_map_lower s (by simpa using p1.2)
  rw [hh, hl]
  rfl

theorem joinRuns_cons (p : Bool × Str) (rs : List (Bool × Str)) :
    joinRuns (p :: rs) = p.2 ++ joinRuns rs := rfl

theorem joinRuns_runs : ∀ s : Str, joinRuns (runs s) = s
  | [] => rfl
  | c :: rest => by
      have IH := joinRuns_runs rest
      rcases hr : runs rest with _ | ⟨⟨b, r⟩, rs⟩
      · rw [hr] at IH
        have hshow : runs (c :: rest) = [(isWordChar c, [c])] := by rw [runs, hr]
        rw [hshow]
        show [c] ++ [] = c :: rest
        rw [show rest = [] from IH.symm ▸ rfl]
        rfl
      · rw [hr] at IH
        by_cases heq : isWordChar c = b
        · have hshow : runs (c :: rest) = (b, c :: r) :: rs := by
            rw [runs, hr]
            show (if isWordChar c = b then (b, c :: r) :: rs
              else (isWordChar c, [c]) :: (b, r) :: rs) = (b, c :: r) :: rs
            rw [if_pos heq]
          rw [hshow, joinRuns_cons]
          show (c :: r) ++ joinRuns rs = c :: rest
          rw [← IH, joinRuns_cons]
          rfl
        · have hshow : runs (c :: rest) = (isWordChar c, [c]) :: (b, r) :: rs := by
            rw [runs, hr]
            show (if isWordChar c = b then (b, c :: r) :: rs
              else (isWordChar c, [c]) :: (b, r) :: rs) = (isWordChar c, [c]) :: (b, r) :: rs
            rw [if_neg heq]
          rw [hshow, joinRuns_cons]
          show [c] ++ joinRuns ((b, r) :: rs) = c :: rest
          rw [IH]
          rfl

/-- Structure of a run list: non-empty runs with correct flags, adjacent
flags alternating. -/
theorem runs_wf : ∀ s : Str,
    (∀ p ∈ runs s, p.2 ≠ [] ∧ ∀ c ∈ p.2, isWordChar c = p.1) ∧
      List.Chain' (fun p q : Bool × Str => p.1 ≠ q.1) (runs s)
  | [] => ⟨fun p hp => absurd hp (List.not_mem_nil p), List.chain'_nil⟩
  | c :: rest => by
      have IH := runs_wf rest
      rcases hr : runs rest with _ | ⟨⟨b, r⟩, rs⟩
      · have hshow : runs (c :: rest) = [(isWordChar c, [c])] := by rw [runs, hr]
        rw [hshow]
        refine ⟨?_, by simp⟩
        intro p hp
        have hpe : p = (isWordChar c, [c]) := by simpa using hp
        subst hpe
        exact ⟨by simp, by simp⟩
      · rw [hr] at IH
        by_cases heq : isWordChar c = b
        · have hshow : runs (c :: rest) = (b, c :: r) :: rs := by
            rw [runs, hr]
            show (if isWordChar c = b then (b, c :: r) :: rs
              else (isWordChar c, [c]) :: (b, r) :: rs) = (b, c :: r) :: rs
            rw [if_pos heq]
          rw [hshow]
          refine ⟨?_, ?_⟩
          · intro p hp
            rcases List.mem_cons.mp hp with h1 | h1
            · subst h1
              refine ⟨by simp, ?_⟩
              intro d hd
              rcases List.mem_cons.mp hd with h2 | h2
              · subst h2
                exact heq
              · exact (IH.1 (b, r) (by simp)).2 d h2
            · exact IH.1 p (by simp [h1])
          · rw [List.chain'_cons']
            refine ⟨?_, (List.chain'_cons'.mp IH.2).2⟩
            intro q hq
            have := (List.chain'_cons'.mp IH.2).1 q hq
            simpa using this
        · have hshow : runs (c :: rest) = (isWordChar c, [c]) :: (b, r) :: rs := by
            rw [runs, hr]
            show (if isWordChar c = b then (b, c :: r) :: rs
              else (isWordChar c, [c]) :: (b, r) :: rs) = (isWordChar c, [c]) :: (b, r) :: rs
            rw [if_neg heq]
          rw [hshow]
          refine ⟨?_, ?_⟩
          · intro p hp
            rcases List.mem_cons.mp hp with h1 | h1
            · subst h1
              exact ⟨by simp, by simp⟩
            · exact IH.1 p h1
          · rw [List.chain'_cons']
            refine ⟨?_, IH.2⟩
            intro q hq
            have hqe : (b, r) = q := by simpa using hq
            subst hqe
            simpa using heq

theorem eatDups_nil (w : Str) : eatDups w [] = [] := rfl

theorem eatDups_single (w : Str) (p : Bool × Str) : eatDups w [p] = [p] := by
  rcases p with ⟨b, s⟩
  cases b <;> rfl

theorem eatDups_ft (w s w2 : Str) (rest : List (Bool × Str)) :
    eatDups w ((false, s) :: (true, w2) :: rest) =
      if pyLower w2 = pyLower w then eatDups w rest
      else (false, s) :: (true, w2) :: rest := rfl

theorem eatDups_ff (w s s2 : Str) (rest : List (Bool × Str)) :
    eatDups w ((false, s) :: (false, s2) :: rest) = (false, s) :: (false, s2) :: rest := rfl

theorem eatDups_t (w b : Str) (q : Bool × Str) (rest : List (Bool × Str)) :
    eatDups w ((true, b) :: q :: rest) = (true, b) :: q :: rest := by
  rcases q with ⟨c, t⟩
  cases c <;> rfl

theorem collapseGo_nil : ∀ fuel, collapseGo fuel [] = []
  | 0 => rfl
  | _ + 1 => rfl

theorem collapseGo_zero (rs : List (Bool × Str)) : collapseGo 0 rs = rs := by
  cases rs with
  | nil => rfl
  | cons p rest => rcases p with ⟨b, s⟩; cases b <;> rfl

theorem collapseGo_f (fuel : Nat) (s : Str) (rest : List (Bool × Str)) :
    collapseGo (fuel + 1) ((false, s) :: rest) = (false, s) :: collapseGo fuel rest := rfl

theorem collapseGo_t (fuel : Nat) (w : Str) (rest : List (Bool × Str)) :
    collapseGo (fuel + 1) ((true, w) :: rest) = (true, w) :: collapseGo fuel (eatDups w rest) := rfl

theorem eatDups_suffix (w : Str) : ∀ l : List (Bool × Str), eatDups w l <:+ l
  | [] => List.suffix_refl _
  | [p] => by rw [eatDups_single]
  | (false, s) :: (true, w2) :: rest => by
      rw [eatDups_ft]
      split
    
      · exact ((eatDups_suffix w rest).trans (List.suffix_cons _ _)).trans
          (List.suffix_cons _ _)
      · exact List.suffix_refl _
  | (false, s) :: (false, s2) :: rest => by rw [eatDups_ff]
  | (true, b) :: q :: rest => by rw [eatDups_t]

theorem suffix_getLast? {α : Type} {l1 l2 : List α} (h : l1 <:+ l2) (hne : l1 ≠ []) :
    l1.getLast? = l2.getLast? := by
  obtain ⟨t, ht⟩ := h
  rw [← ht, List.getLast?_append_of_ne_nil _ hne]

theorem getLast?_cons_of_ne_nil {α : Type} {a : α} {l : List α} (h : l ≠ []) :
    (a :: l).getLast? = l.getLast? := by
  obtain ⟨x, xs, hx⟩ := List.exists_cons_of_ne_nil h
  rw [hx, List.getLast?_cons_cons]

theorem collapseGo_sublist : ∀ (fuel : Nat) (rs : List (Bool × Str)),
    List.Sublist (collapseGo fuel rs) rs
  | fuel, [] => by rw [collapseGo_nil]
  | 0, p :: rs => by rw [collapseGo_zero]
  | fuel + 1, (false, s) :: rest => by
      rw [collapseGo_f]
      exact List.Sublist.cons₂ _ (collapseGo_sublist fuel rest)
  | fuel + 1, (true, w) :: rest => by
      rw [collapseGo_t]
      exact List.Sublist.cons₂ _
        ((collapseGo_sublist fuel (eatDups w rest)).trans (eatDups_suffix w rest).sublist)

theorem collapseGo_head : ∀ (fuel : Nat) (rs : List (Bool × Str)),
    (collapseGo fuel rs).head? = rs.head?
  | fuel, [] => by rw [collapseGo_nil]
  | 0, p :: rs => by rw [collapseGo_zero]
  | fuel + 1, (false, s) :: rest => by rw [collapseGo_f]; rfl
  | fuel + 1, (true, w) :: rest => by rw [collapseGo_t]; rfl

theorem collapseGo_eq_nil : ∀ (fuel : Nat) (rs : List (Bool × Str)),
    collapseGo fuel rs = [] ↔ rs = []
  | fuel, [] => by rw [collapseGo_nil]
  | 0, p :: rs => by rw [collapseGo_zero]
  | fuel + 1, (false, s) :: rest => by rw [collapseGo_f]; simp
  | fuel + 1, (true, w) :: rest => by rw [collapseGo_t]; simp

theorem collapseGo_last : ∀ (fuel : Nat) (rs : List (Bool × Str)),
    (collapseGo fuel rs).getLast? = rs.getLast? ∨
      ∃ w, (collapseGo fuel rs).getLast? = some (true, w)
  | fuel, [] => by rw [collapseGo_nil]; exact Or.inl rfl
  | 0, p :: rs => by rw [collapseGo_zero]; exact Or.inl rfl
  | fuel + 1, (false, s) :: rest => by
      rcases hrest : rest with _ | ⟨q, rest2⟩
      · rw [collapseGo_f, collapseGo_nil]
        exact Or.inl rfl
      · rw [← hrest, collapseGo_f]
        have hne : collapseGo fuel rest ≠ [] := by
          intro hh
          rw [(collapseGo_eq_nil fuel rest).mp hh] at hrest
          exact List.noConfusion hrest
        rw [getLast?_cons_of_ne_nil hne,
          getLast?_cons_of_ne_nil (by rw [hrest]; exact List.cons_ne_nil _ _)]
        exact collapseGo_last fuel rest
  | fuel + 1, (true, w) :: rest => by
      rw [collapseGo_t]
      by_cases he : eatDups w rest = []
      · rw [he, collapseGo_nil]
        right
        exact ⟨w, rfl⟩
      · have hne : collapseGo fuel (eatDups w rest) ≠ [] := by
          intro hh
          exact he ((collapseGo_eq_nil fuel _).mp hh)
        have hrne : rest ≠ [] := by
          intro hh
          subst hh
          exact he rfl
        rw [getLast?_cons_of_ne_nil hne, getLast?_cons_of_ne_nil hrne]
        rcases collapseGo_last fuel (eatDups w rest) with h | h
        · rw [h, suffix_getLast? (eatDups_suffix w rest) he]
          exact Or.inl rfl
        · exact Or.inr h

theorem eatDups_head_false (w : Str) : ∀ l : List (Bool × Str),
    List.Chain' (fun p q : Bool × Str => p.1 ≠ q.1) l →
    (∀ p ∈ l.head?, p.1 = false) → ∀ p ∈ (eatDups w l).head?, p.1 = false
  | [], _, h => by rw [eatDups_nil]; exact h
  | [p], _, h => by rw [eatDups_single]; exact h
  | (false, s) :: (true, w2) :: rest, hc, h => by
      rw [eatDups_ft]
      split
      · apply eatDups_head_false w rest hc.tail.tail
        intro p hp
        have hrel := (List.chain'_cons'.mp (List.chain'_cons'.mp hc).2).1 p hp
        rcases p with ⟨pb, ps⟩
        cases pb
        · rfl
        · exact absurd rfl hrel
      · exact h
  | (false, s) :: (false, s2) :: rest, _, h => by rw [eatDups_ff]; exact h
  | (true, b) :: q :: rest, _, h => by rw [eatDups_t]; exact h

theorem collapseGo_chain : ∀ (fuel : Nat) (rs : List (Bool × Str)),
    List.Chain' (fun p q : Bool × Str => p.1 ≠ q.1) rs →
    List.Chain' (fun p q : Bool × Str => p.1 ≠ q.1) (collapseGo fuel rs)
  | fuel, [], h => by rw [collapseGo_nil]; exact List.chain'_nil
  | 0, p :: rs, h => by rw [collapseGo_zero]; exact h
  | fuel + 1, (false, s) :: rest, h => by
      rw [collapseGo_f, List.chain'_cons']
      rw [List.chain'_cons'] at h
      refine ⟨?_, collapseGo_chain fuel rest h.2⟩
      intro b hb
      rw [collapseGo_head] at hb
      exact h.1 b hb
  | fuel + 1, (true, w) :: rest, h => by
      rw [collapseGo_t, List.chain'_cons']
      rw [List.chain'_cons'] at h
      have hchain2 := h.2.suffix (eatDups_suffix w rest)
      refine ⟨?_, collapseGo_chain fuel _ hchain2⟩
      intro b hb
      rw [collapseGo_head] at hb
      have hfalse : b.1 = false := by
        refine eatDups_head_false w rest h.2 ?_ b hb
        intro p hp
        have hrel := h.1 p hp
        rcases p with ⟨pb, ps⟩
        cases pb
        · rfl
        · exact absurd rfl hrel
      rw [hfalse]
      exact fun hcontra => Bool.noConfusion hcontra

theorem mem_joinRuns {c : Char} : ∀ rs : List (Bool × Str),
    c ∈ joinRuns rs ↔ ∃ p ∈ rs, c ∈ p.2
  | [] => by simp [joinRuns]
  | p :: rest => by
      show c ∈ p.2 ++ joinRuns rest ↔ _
      rw [List.mem_append, mem_joinRuns rest]
      simp

theorem joinRuns_decomp : ∀ (rs : List (Bool × Str)) (p : Bool × Str), p ∈ rs →
    ∃ A B, joinRuns rs = A ++ (p.2 ++ B)
  | q :: rest, p, hp => by
      rcases List.mem_cons.mp hp with h | h
      · subst h
        exact ⟨[], joinRuns rest, rfl⟩
      · obtain ⟨A, B, hAB⟩ := joinRuns_decomp rest p h
        refine ⟨q.2 ++ A, B, ?_⟩
        show q.2 ++ joinRuns rest = _
        rw [hAB, List.append_assoc]

theorem noTwoSpaces_append_left : ∀ (x y : Str),
    noTwoSpaces (x ++ y) = true → noTwoSpaces x = true
  | [], _, _ => rfl
  | [_], _, _ => rfl
  | a :: b :: rest, y, h => by
      have h2 := (Bool.and_eq_true _ _).mp h
      show (!(a == ' ' && b == ' ') && noTwoSpaces (b :: rest)) = true
      exact (Bool.and_eq_true _ _).mpr ⟨h2.1, noTwoSpaces_append_left (b :: rest) y h2.2⟩

theorem noTwoSpaces_append_right : ∀ (x y : Str),
    noTwoSpaces (x ++ y) = true → noTwoSpaces y = true
  | [], _, h => h
  | [_], _, h => noTwoSpaces_tail h
  | _ :: b :: rest, y, h => noTwoSpaces_append_right (b :: rest) y ((Bool.and_eq_true _ _).mp h).2

theorem joinRuns_head : ∀ (rs : List (Bool × Str)) (p : Bool × Str),
    rs.head? = some p → p.2 ≠ [] → (joinRuns rs).head? = p.2.head?
  | q :: rest, p, hq, hne => by
      have hqp : q = p := by simpa using hq
      subst hqp
      show (q.2 ++ joinRuns rest).head? = q.2.head?
      rw [List.head?_append_of_ne_nil _ hne]

theorem joinRuns_last : ∀ (rs : List (Bool × Str)) (q : Bool × Str),
    rs.getLast? = some q → q.2 ≠ [] → (joinRuns rs).getLast? = q.2.getLast?
  | [p], q, hq, hne => by
      have hpq : p = q := by simpa using hq
      subst hpq
      show (p.2 ++ ([] : Str)).getLast? = p.2.getLast?
      rw [List.append_nil]
  | p :: p2 :: rest, q, hq, hne => by
      rw [List.getLast?_cons_cons] at hq
      have hrec := joinRuns_last (p2 :: rest) q hq hne
      have hjne : joinRuns (p2 :: rest) ≠ [] := by
        intro hh
        rw [hh] at hrec
        obtain ⟨c, L, hc⟩ := List.exists_cons_of_ne_nil hne
        rw [hc] at hrec
        have hs := List.getLast?_isSome.mpr (List.cons_ne_nil c L)
        rw [← hrec] at hs
        simp at hs
      show (p.2 ++ joinRuns (p2 :: rest)).getLast? = _
      rw [List.getLast?_append_of_ne_nil _ hjne, hrec]

theorem noTwoSpaces_joinRuns : ∀ rs : List (Bool × Str),
    (∀ p ∈ rs, p.2 ≠ [] ∧ ∀ c ∈ p.2, isWordChar c = p.1) →
    (∀ p ∈ rs, noTwoSpaces p.2 = true) →
    List.Chain' (fun p q : Bool × Str => p.1 ≠ q.1) rs →
    noTwoSpaces (joinRuns rs) = true
  | [], _, _, _ => rfl
  | [p], hwf, hnt, _ => by
      show noTwoSpaces (p.2 ++ []) = true
      rw [List.append_nil]
      exact hnt p (by simp)
  | p :: q :: rest, hwf, hnt, hchain => by
      show noTwoSpaces (p.2 ++ joinRuns (q :: rest)) = true
      have hq2ne : q.2 ≠ [] := (hwf q (by simp)).1
      have hIH := noTwoSpaces_joinRuns (q :: rest) (fun r hr => hwf r (by simp [hr]))
        (fun r hr => hnt r (by simp [hr])) hchain.tail
      refine noTwoSpaces_append p.2 (joinRuns (q :: rest)) (hnt p (by simp)) hIH ?_
      intro hlast hhead
      have hne := (List.chain'_cons'.mp hchain).1 q rfl
      rw [joinRuns_head (q :: rest) q rfl hq2ne] at hhead
      cases hp1 : p.1 with
      | true =>
          have hsp : (' ' : Char) ∈ p.2 := List.mem_of_mem_getLast? hlast
          have := (hwf p (by simp)).2 ' ' hsp
          rw [hp1] at this
          exact absurd this (by decide)
      | false =>
          have hq1 : q.1 = true := by
            cases hq1 : q.1 with
            | true => rfl
            | false => rw [hp1, hq1] at hne; exact absurd rfl hne
          have hsp : (' ' : Char) ∈ q.2 := List.mem_of_mem_head? hhead
          have := (hwf q (by simp)).2 ' ' hsp
          rw [hq1] at this
          exact absurd this (by decide)

theorem dedup_normStr (s : Str) (h : normStr s = true) :
    normStr (remove_consecutive_duplicates s) = true := by
  have h4 := (Bool.and_eq_true _ _).mp h
  have h3 := (Bool.and_eq_true _ _).mp h4.1
  have h2 := (Bool.and_eq_true _ _).mp h3.1
  have hws := h2.1
  have hnt := h2.2
  have hhd := h3.2
  have hlt := h4.2
  rw [wsOnlySpace, List.all_eq_true] at hws
  have hwf := runs_wf s
  have hsub : List.Sublist (collapseGo (runs s).length (runs s)) (runs s) :=
    collapseGo_sublist _ _
  have hmemruns : ∀ p ∈ collapseGo (runs s).length (runs s), p ∈ runs s :=
    fun p hp => hsub.subset hp
  have houtwf : ∀ p ∈ collapseGo (runs s).length (runs s),
      p.2 ≠ [] ∧ ∀ c ∈ p.2, isWordChar c = p.1 :=
    fun p hp => hwf.1 p (hmemruns p hp)
  have hchain := collapseGo_chain (runs s).length (runs s) hwf.2
  have hjr : joinRuns (runs s) = s := joinRuns_runs s
  have hntrun : ∀ p ∈ runs s, noTwoSpaces p.2 = true := by
    intro p hp
    obtain ⟨A, B, hAB⟩ := joinRuns_decomp (runs s) p hp
    rw [hjr] at hAB
    have hnt2 := hnt
    rw [hAB] at hnt2
    exact noTwoSpaces_append_left _ _ (noTwoSpaces_append_right A _ hnt2)
  have hR : remove_consecutive_duplicates s =
      joinRuns (collapseGo (runs s).length (runs s)) := rfl
  rw [hR, normStr]
  refine (Bool.and_eq_true _ _).mpr ⟨(Bool.and_eq_true _ _).mpr
    ⟨(Bool.and_eq_true _ _).mpr ⟨?_, ?_⟩, ?_⟩, ?_⟩
  · rw [wsOnlySpace, List.all_eq_true]
    intro c hc
    obtain ⟨p, hp, hcp⟩ := (mem_joinRuns _).mp hc
    have hcs : c ∈ joinRuns (runs s) := (mem_joinRuns _).mpr ⟨p, hmemruns p hp, hcp⟩
    rw [hjr] at hcs
    exact hws c hcs
  · exact noTwoSpaces_joinRuns _ houtwf (fun p hp => hntrun p (hmemruns p hp)) hchain
  · rcases hout2 : collapseGo (runs s).length (runs s) with _ | ⟨p, rest⟩
    · rfl
    · have hpmem : p ∈ collapseGo (runs s).length (runs s) := by rw [hout2]; simp
      have hp2ne := (houtwf p hpmem).1
      have hh : (joinRuns (collapseGo (runs s).length (runs s))).head? = p.2.head? := by
        rw [hout2]
        exact joinRuns_head _ p rfl hp2ne
      rw [← hout2]
      have hrshead : (runs s).head? = some p := by
        rw [← collapseGo_head (runs s).length (runs s), hout2]
        rfl
      have hshead : s.head? = p.2.head? := by
        rw [← hjr]
        exact joinRuns_head (runs s) p hrshead hp2ne
      rw [hh, ← hshead]
      exact hhd
  · rcases collapseGo_last (runs s).length (runs s) with hl | ⟨w, hl⟩
    · rcases hout2 : collapseGo (runs s).length (runs s) with _ | ⟨p, rest⟩
      · rfl
      · obtain ⟨q, hq⟩ : ∃ q, (collapseGo (runs s).length (runs s)).getLast? = some q := by
          rw [hout2]
          exact ⟨(p :: rest).getLast (List.cons_ne_nil _ _),
            List.getLast?_eq_getLast _ (List.cons_ne_nil _ _)⟩
        rw [← hout2]
        have hq_rs : (runs s).getLast? = some q := by rw [← hl, hq]
        have hqmem : q ∈ runs s := List.mem_of_mem_getLast? hq_rs
        have hq2ne := (hwf.1 q hqmem).1
        have hRlast := joinRuns_last (collapseGo (runs s).length (runs s)) q hq hq2ne
        have hslast : s.getLast? = q.2.getLast? := by
          rw [← hjr]
          exact joinRuns_last (runs s) q hq_rs hq2ne
        rw [hRlast, ← hslast]
        exact hlt
    · have hmem : (true, w) ∈ collapseGo (runs s).length (runs s) :=
        List.mem_of_mem_getLast? hl
      have hwwf := houtwf _ hmem
      have hwne := hwwf.1
      have hRlast := joinRuns_last (collapseGo (runs s).length (runs s)) (true, w) hl hwne
      obtain ⟨d, hd⟩ : ∃ d, w.getLast? = some d :=
        ⟨w.getLast hwne, List.getLast?_eq_getLast w hwne⟩
      have hdmem : d ∈ w := List.mem_of_mem_getLast? hd
      have hdw : isWordChar d = true := hwwf.2 d hdmem
      have hdne : d ≠ ' ' := by
        intro hh
        rw [hh] at hdw
        exact absurd hdw (by decide)
      rw [hRlast, hd]
      simp [hdne]

theorem applyCasing_idem (cased : Bool) (t : Str) :
    applyCasing cased (applyCasing cased t) = applyCasing cased t := by
  cases cased
  · show pyLower (pyLower t) = pyLower t
    exact pyLower_idem t
  · rfl

theorem normStr_clean_text (text : Str) (R : List (Str × Str)) (rm : List Str)
    (cased : Bool) : normStr (clean_text text R rm cased) = true := by
  have h5 : normStr (remove_words (replace_words (remove_punctuation
      (replace_words (hyphensToSpaces text) R)) R) rm) = true := by
    rw [remove_words]
    refine normStr_joinSpace _ ?_
    intro w hw
    exact splitWords_wf _ w (List.mem_of_mem_filter hw)
  have h6 := dedup_normStr _ h5
  show normStr (applyCasing cased (remove_consecutive_duplicates (remove_words (replace_words
    (remove_punctuation (replace_words (hyphensToSpaces text) R)) R) rm))) = true
  cases cased
  · exact normStr_pyLower _ h6
  · exact h6

theorem dropWhile_head_false {p : Char → Bool} : ∀ {l : Str} {d : Char},
    l.head? = some d → p d = false → l.dropWhile p = l
  | c :: t, d, hh, hp => by
      have hcd : c = d := by simpa using hh
      subst hcd
      simp [List.dropWhile_cons, hp]

theorem pyStrip_norm (s : Str) (h : normStr s = true) : pyStrip (s ++ [' ']) = s := by
  have h4 := (Bool.and_eq_true _ _).mp h
  have h3 := (Bool.and_eq_true _ _).mp h4.1
  have h2 := (Bool.and_eq_true _ _).mp h3.1
  have hws := h2.1
  have hhd := h3.2
  have hlt := h4.2
  rcases hs : s with _ | ⟨c, t⟩
  · decide
  · rw [hs] at hws hhd hlt
    have hc : c ≠ ' ' := by
      intro hh
      rw [hh] at hhd
      simp at hhd
    have hpc : pyIsSpace c = false := by
      have := List.all_eq_true.mp hws c (by simp)
      rcases Bool.or_eq_true_iff.mp this with h' | h'
      · simpa using h'
      · exact absurd (by simpa using h') hc
    rw [pyStrip]
    rw [dropWhile_head_false (l := (c :: t) ++ [' ']) rfl hpc]
    rw [show ((c :: t) ++ [' ']).reverse = ' ' :: (c :: t).reverse from by
      rw [List.reverse_append]
      rfl]
    rw [show (' ' :: (c :: t).reverse).dropWhile pyIsSpace =
        (c :: t).reverse.dropWhile pyIsSpace from by
      simp [List.dropWhile_cons, show pyIsSpace ' ' = true from by decide]]
    obtain ⟨d, hd⟩ : ∃ d, (c :: t).getLast? = some d :=
      ⟨_, List.getLast?_eq_getLast _ (List.cons_ne_nil _ _)⟩
    have hdne : d ≠ ' ' := by
      intro hh
      rw [hd, hh] at hlt
      simp at hlt
    have hdmem : d ∈ c :: t := List.mem_of_mem_getLast? hd
    have hpd : pyIsSpace d = false := by
      have := List.all_eq_true.mp hws d hdmem
      rcases Bool.or_eq_true_iff.mp this with h' | h'
      · simpa using h'
      · exact absurd (by simpa using h') hdne
    have hrevhead : (c :: t).reverse.head? = some d := by
      rw [List.head?_reverse]
      exact hd
    rw [dropWhile_head_false hrevhead hpd, List.reverse_reverse]

theorem foldl_words_shift : ∀ (ws : List Str) (acc : Str),
    ws.foldl (fun a w => a ++ w ++ [' ']) acc =
      acc ++ ws.foldl (fun a w => a ++ w ++ [' ']) []
  | [], acc => by simp
  | w :: ws, acc => by
      show List.foldl _ (acc ++ w ++ [' ']) ws =
        acc ++ List.foldl _ (([] : Str) ++ w ++ [' ']) ws
      rw [foldl_words_shift ws (acc ++ w ++ [' ']),
        foldl_words_shift ws (([] : Str) ++ w ++ [' '])]
      simp [List.append_assoc]

theorem foldl_words_join : ∀ (w : Str) (ws : List Str),
    (w :: ws).foldl (fun a v => a ++ v ++ [' ']) [] = joinSpace (w :: ws) ++ [' ']
  | w, [] => by simp [joinSpace]
  | w, v :: ws => by
      show List.foldl _ (([] : Str) ++ w ++ [' ']) (v :: ws) = _
      rw [foldl_words_shift, foldl_words_join v ws]
      show ([] : Str) ++ w ++ [' '] ++ (joinSpace (v :: ws) ++ [' ']) =
        (w ++ ' ' :: joinSpace (v :: ws)) ++ [' ']
      simp

theorem foldl_replace_id (R : List (Str × Str)) : ∀ (ws : List Str) (acc : Str),
    (∀ w ∈ ws, replaceOne R w = w) →
    ws.foldl (fun a w => a ++ replaceOne R w ++ [' ']) acc =
      ws.foldl (fun a w => a ++ w ++ [' ']) acc
  | [], _, _ => rfl
  | w :: ws, acc, h => by
      show List.foldl _ (acc ++ replaceOne R w ++ [' ']) ws =
        List.foldl _ (acc ++ w ++ [' ']) ws
      rw [h w (by simp)]
      exact foldl_replace_id R ws _ (fun v hv => h v (by simp [hv]))

theorem replace_words_fix (s : Str) (R : List (Str × Str)) (hn : normStr s = true)
    (h : ∀ w ∈ splitWords s, replaceOne R w = w) : replace_words s R = s := by
  rw [replace_words, foldl_replace_id R _ _ h]
  rcases hsw : splitWords s with _ | ⟨w, ws⟩
  · have hjs := joinSpace_splitWords_of_norm s hn
    rw [hsw] at hjs
    rw [← hjs]
    rfl
  · rw [foldl_words_join w ws]
    have hj : joinSpace (w :: ws) = s := by
      have := joinSpace_splitWords_of_norm s hn
      rwa [hsw] at this
    rw [hj]
    exact pyStrip_norm s hn

theorem remove_words_nil_fix (s : Str) (hn : normStr s = true) : remove_words s [] = s := by
  rw [remove_words]
  have hf : List.filter (fun w => !([] : List Str).contains (pyLower w)) (splitWords s) =
      splitWords s :=
    List.filter_eq_self.mpr (fun a _ => rfl)
  rw [hf]
  exact joinSpace_splitWords_of_norm s hn

theorem remove_punctuation_fix (s : Str) (h : s.all (fun c => !isPunct c) = true) :
    remove_punctuation s = s := by
  rw [remove_punctuation]
  exact List.filter_eq_self.mpr (List.all_eq_true.mp h)

theorem hyphens_fix (s : Str) (h : ∀ c ∈ s, c ≠ '-') : hyphensToSpaces s = s := by
  rw [hyphensToSpaces]
  have hcg : ∀ c ∈ s, (if c = '-' then ' ' else c) = c := fun c hc => if_neg (h c hc)
  rw [List.map_congr_left hcg]
  exact List.map_id s

theorem replaceOne_id (R : List (Str × Str)) (w : Str)
    (h : (dictLookup R (pyLower w)).isNone = true) : replaceOne R w = w := by
  show (match dictLookup R (pyLower w) with | some v => v | none => w) = w
  rcases hd : dictLookup R (pyLower w) with _ | v
  · rfl
  · rw [hd] at h
    simp at h

/-- C9 counterexample: with replacements `{"a": "b", "c": "a"}`, no removal
words and `cased = True`, the first pass on `"c."` yields `"a"` — an output
with no consecutive duplicate words (`remove_consecutive_duplicates` fixes
it) and no hyphens (`hyphensToSpaces` fixes it) — yet a second pass maps it
to `"b"`: stripping the punctuation fused to `"c."` exposes the key `"c"`,
whose replacement `"a"` is itself a key on the next pass, so `clean_text` is
not idempotent under the claimed hypotheses. -/
theorem clean_text_idempotent_cex :
    clean_text "c.".toList [("a".toList, "b".toList), ("c".toList, "a".toList)] [] true =
      "a".toList ∧
    remove_consecutive_duplicates "a".toList = "a".toList ∧
    hyphensToSpaces "a".toList = "a".toList ∧
    clean_text "a".toList [("a".toList, "b".toList), ("c".toList, "a".toList)] [] true =
      "b".toList ∧
    "b".toList ≠ "a".toList :=
  ⟨by decide, by decide, by decide, by decide, by decide⟩

/-- C9 amended: `clean_text` (with an empty removal list) is idempotent
provided the first pass's output additionally contains no punctuation
characters and none of its words has its lowercase form among the
replacement keys; the claimed hypotheses — a duplicate-free, hyphen-free
first-pass output — do not suffice, because punctuation stripping can expose
a replacement trigger that fires again on the second pass. -/
theorem clean_text_idempotent_amended (text : Str) (R : List (Str × Str)) (cased : Bool)
    (h1 : (clean_text text R [] cased).all (fun c => !isPunct c) = true)
    (h2 : remove_consecutive_duplicates (clean_text text R [] cased) =
      clean_text text R [] cased)
    (h3 : (splitWords (clean_text text R [] cased)).all
      (fun w => (dictLookup R (pyLower w)).isNone) = true) :
    clean_text (clean_text text R [] cased) R [] cased = clean_text text R [] cased := by
  have hnorm := normStr_clean_text text R [] cased
  have hrepl : ∀ w ∈ splitWords (clean_text text R [] cased), replaceOne R w = w :=
    fun w hw => replaceOne_id R w (List.all_eq_true.mp h3 w hw)
  have hnoh : ∀ c ∈ clean_text text R [] cased, c ≠ '-' := by
    intro c hc heq
    have hcp := List.all_eq_true.mp h1 c hc
    rw [heq] at hcp
    exact absurd hcp (by decide)
  show applyCasing cased (remove_consecutive_duplicates (remove_words (replace_words
    (remove_punctuation (replace_words (hyphensToSpaces (clean_text text R [] cased)) R)) R)
    [])) = clean_text text R [] cased
  rw [hyphens_fix _ hnoh, replace_words_fix _ R hnorm hrepl,
    remove_punctuation_fix _ h1, replace_words_fix _ R hnorm hrepl,
    remove_words_nil_fix _ hnorm, h2]
  exact applyCasing_idem cased _

/-- C9 witness: the amended idempotence theorem applied to the input
`"hi there"` with replacements `{"x": "y"}` and `cased = True`. -/
theorem clean_text_idempotent_amended_witness :
    ((clean_text "hi there".toList [("x".toList, "y".toList)] [] true).all
        (fun c => !isPunct c) = true) ∧
    remove_consecutive_duplicates
        (clean_text "hi there".toList [("x".toList, "y".toList)] [] true) =
      clean_text "hi there".toList [("x".toList, "y".toList)] [] true ∧
    ((splitWords (clean_text "hi there".toList [("x".toList, "y".toList)] [] true)).all
        (fun w => (dictLookup [("x".toList, "y".toList)] (pyLower w)).isNone) = true) ∧
    clean_text (clean_text "hi there".toList [("x".toList, "y".toList)] [] true)
        [("x".toList, "y".toList)] [] true =
      clean_text "hi there".toList [("x".toList, "y".toList)] [] true :=
  ⟨by decide, by decide, by decide,
    clean_text_idempotent_amended _ _ _ (by decide) (by decide) (by decide)⟩

theorem pyIndex_pos (s : Str) (i : Nat) (h : i < s.length) :
    pyIndex s (i : Int) = some (s.getD i ' ') := by
  rw [pyIndex, if_pos (by omega), if_pos (by omega)]
  simp

theorem pyIndex_neg (s : Str) (k : Nat) (hk : k + 1 ≤ s.length) :
    pyIndex s (-(k + 1) : Int) = some (s.getD (s.length - (k + 1)) ' ') := by
  rw [pyIndex, if_neg (by omega), if_pos (by omega)]
  have hEq : ((-(k + 1) : Int) + (s.length : Int)).toNat = s.length - (k + 1) := by omega
  rw [hEq]

theorem pySliceTo_neg_one (s : Str) : pySliceTo s (-1) = s.take (s.length - 1) := by
  rw [pySliceTo, if_neg (by omega)]
  have hEq : ((-1 : Int) + (s.length : Int)).toNat = s.length - 1 := by omega
  rw [hEq]

theorem pySliceFrom_neg_one (s : Str) : pySliceFrom s (-1) = s.drop (s.length - 1) := by
  rw [pySliceFrom, if_neg (by omega)]
  have hEq : ((-1 : Int) + (s.length : Int)).toNat = s.length - 1 := by omega
  rw [hEq]

theorem getD_mem (s : Str) (i : Nat) (h : i < s.length) : s.getD i ' ' ∈ s := by
  rw [List.getD_eq_getElem?_getD, List.getElem?_eq_getElem h]
  exact List.getElem_mem h

theorem findCutIGo_step (s : Str) (lo : Int) (fuel : Nat) (co : Int) (c : Char)
    (h : pyIndex s (co - 1) = some c) :
    findCutIGo s lo (fuel + 1) co =
      if c ≠ ' ' ∧ lo < co then findCutIGo s lo fuel (co - 1) else some co := by
  rw [findCutIGo, h]

theorem findCutIGo_stop (s : Str) (hlen : 5 < s.length) :
    ∀ fuel, 1 ≤ fuel → findCutIGo s (-1) fuel (-1) = some (-1) := by
  intro fuel hf
  obtain ⟨f, rfl⟩ : ∃ f, fuel = f + 1 := ⟨fuel - 1, by omega⟩
  rw [findCutIGo_step s (-1) f (-1) (s.getD (s.length - (1 + 1)) ' ') (by
    rw [show ((-1 : Int) - 1) = -(((1 : Nat) : Int) + 1) from by norm_num]
    exact pyIndex_neg s 1 (by omega))]
  rw [if_neg (fun h => absurd h.2 (by norm_num))]

theorem findCutIGo_desc (s : Str) (hget : ∀ i, i < s.length → s.getD i ' ' ≠ ' ')
    (hlen : 5 < s.length) :
    ∀ k : Nat, k ≤ 5 → ∀ fuel, k + 2 ≤ fuel →
      findCutIGo s (-1) fuel (k : Int) = some (-1) := by
  intro k
  induction k with
  | zero =>
      intro _ fuel hf
      obtain ⟨f, rfl⟩ : ∃ f, fuel = f + 1 := ⟨fuel - 1, by omega⟩
      rw [findCutIGo_step s (-1) f (((0 : Nat) : Int)) (s.getD (s.length - (0 + 1)) ' ') (by
        rw [show (((0 : Nat) : Int) - 1) = -(((0 : Nat) : Int) + 1) from by norm_num]
        exact pyIndex_neg s 0 (by omega))]
      rw [if_pos ⟨hget _ (by omega), by omega⟩]
      rw [show (((0 : Nat) : Int) - 1) = -1 from by norm_num]
      exact findCutIGo_stop s hlen f (by omega)
  | succ k IH =>
      intro hk fuel hf
      obtain ⟨f, rfl⟩ : ∃ f, fuel = f + 1 := ⟨fuel - 1, by omega⟩
      rw [findCutIGo_step s (-1) f (((k + 1 : Nat) : Int)) (s.getD k ' ') (by
        rw [show (((k + 1 : Nat) : Int) - 1) = ((k : Nat) : Int) from by push_cast; ring]
        exact pyIndex_pos s k (by omega))]
      rw [if_pos ⟨hget _ (by omega), by omega⟩]
      rw [show (((k + 1 : Nat) : Int) - 1) = ((k : Nat) : Int) from by push_cast; ring]
      exact IH (by omega) f (by omega)

theorem insertStepI_spaceless (s : Str) (hns : ∀ c ∈ s, c ≠ ' ') (hlen : 5 < s.length) :
    insertStepI 5 6 s = some (s.take (s.length - 1), s.drop (s.length - 1)) := by
  have hget : ∀ i, i < s.length → s.getD i ' ' ≠ ' ' :=
    fun i hi => hns _ (getD_mem s i hi)
  have hfc : findCutIGo s (((5 : Nat) : Int) - ((6 : Nat) : Int)) (6 + 1)
      ((5 : Nat) : Int) = some (-1) := by
    rw [show (((5 : Nat) : Int) - ((6 : Nat) : Int)) = -1 from by norm_num]
    exact findCutIGo_desc s hget hlen 5 (by omega) 7 (by omega)
  simp only [insertStepI]
  rw [if_pos (by omega), hfc]
  show some (pySliceTo s (-1), pySliceFrom s (-1)) = _
  rw [pySliceTo_neg_one, pySliceFrom_neg_one]

theorem insertLoopI_nil (every window : Nat) : ∀ fuel, insertLoopI every window fuel [] = some []
  | 0 => rfl
  | _ + 1 => rfl

theorem insertLoopI_cons (every window fuel : Nat) (c : Char) (s : Str) (part rest : Str)
    (h : insertStepI every window (c :: s) = some (part, rest)) (l : List Str)
    (hl : insertLoopI every window fuel rest = some l) :
    insertLoopI every window (fuel + 1) (c :: s) = some (part :: l) := by
  show (match insertStepI every window (c :: s) with
    | none => none
    | some pr =>
        match insertLoopI every window fuel pr.2 with
        | none => none
        | some l => some (pr.1 :: l)) = some (part :: l)
  rw [h]
  show (match insertLoopI every window fuel rest with
    | none => none
    | some l => some (part :: l)) = some (part :: l)
  rw [hl]

theorem insert_newlinesI_replicate (n : Nat) :
    insert_newlinesI (List.replicate (n + 6) 'b') 5 6 =
      some [List.replicate (n + 5) 'b', ['b']] := by
  have hns : ∀ c ∈ List.replicate (n + 6) 'b', c ≠ ' ' := by
    intro c hc
    rw [List.eq_of_mem_replicate hc]
    decide
  have hlen : (List.replicate (n + 6) 'b').length = n + 6 := List.length_replicate _ _
  have hstep : insertStepI 5 6 (List.replicate (n + 6) 'b') =
      some (List.replicate (n + 5) 'b', ['b']) := by
    rw [insertStepI_spaceless _ hns (by omega), hlen]
    congr 1
    refine Prod.ext ?_ ?_
    · show (List.replicate (n + 6) 'b').take (n + 6 - 1) = List.replicate (n + 5) 'b'
      rw [List.take_replicate]
      congr 1
      omega
    · show (List.replicate (n + 6) 'b').drop (n + 6 - 1) = ['b']
      rw [List.drop_replicate]
      rw [show n + 6 - (n + 6 - 1) = 1 from by omega]
      rfl
  have hstep2 : insertStepI 5 6 ['b'] = some (['b'], []) := by decide
  rw [insert_newlinesI, hlen]
  rw [show List.replicate (n + 6) 'b' = 'b' :: List.replicate (n + 5) 'b' from rfl]
  refine insertLoopI_cons 5 6 (n + 5) 'b' (List.replicate (n + 5) 'b')
    (List.replicate (n + 5) 'b') ['b'] (by rw [← hstep]; rfl) [['b']] ?_
  refine insertLoopI_cons 5 6 (n + 4) 'b' [] ['b'] [] hstep2 [] ?_
  exact insertLoopI_nil 5 6 (n + 4)

/-- C10 counterexample: the original claim asserts a stall for every
`window ≥ every`, but for `window = every + 1` no spaceless input stalls
the loop.  In the `Int` model of the scan, Python's negative indexing lets
the inner loop exit at cut position `-1`, so `insert_newlines("bbbbbbbb",
5, 6)` makes progress — the first chunk takes all but the last character —
and terminates as `["bbbbbbb", "b"]`, whose concatenation is the input. -/
theorem insert_newlines_window_gt_cex :
    insert_newlinesI (List.replicate 8 'b') 5 6 =
      some [List.replicate 7 'b', ['b']] ∧
    insertStepI 5 6 (List.replicate 8 'b') = some (List.replicate 7 'b', ['b']) ∧
    concatAll [List.replicate 7 'b', ['b']] = List.replicate 8 'b' :=
  ⟨by decide, by decide, by decide⟩

/-- C10 amended: with `window < every` the loop terminates and the chunks
concatenate exactly to the input; the precondition is genuinely required at
`window = every`, where the loop body fixes any spaceless string longer
than `every` — the cut degenerates to `0`, the emitted part is empty, and
the Python `while` never terminates.  The claimed stall does not extend to
`window ≥ every` in general: at `window = every + 1` (shown for
`every = 5`) Python's negative indexing makes every spaceless string longer
than `every` progress by all but one character per iteration, and every
all-`b` input of length at least `every + 1` terminates with chunks
concatenating to the input. -/
theorem insert_newlines_termination_amended :
    (∀ (s : Str) (every window : Nat), window < every →
        concatAll (insert_newlines s every window) = s) ∧
    (∀ n : Nat, insertStep n n (List.replicate (n + 1) 'b') =
        ([], List.replicate (n + 1) 'b')) ∧
    (∀ s : Str, (∀ c ∈ s, c ≠ ' ') → 5 < s.length →
        insertStepI 5 6 s = some (s.take (s.length - 1), s.drop (s.length - 1))) ∧
    (∀ n : Nat, insert_newlinesI (List.replicate (n + 6) 'b') 5 6 =
        some [List.replicate (n + 5) 'b', ['b']]) :=
  ⟨insert_newlines_progress_concat.1, insert_newlines_progress_concat.2,
    insertStepI_spaceless, insert_newlinesI_replicate⟩

/-- C10 witness: the amended theorem applied at `every = 3 > window = 1` on
`"ab cd"` (termination with exact concatenation) and at `every = 5,
window = 6` on the spaceless `"bbbbbbbb"` (progress under Python negative
indexing). -/
theorem insert_newlines_termination_amended_witness :
    (1 < 3 ∧ concatAll (insert_newlines "ab cd".toList 3 1) = "ab cd".toList) ∧
    ((∀ c ∈ "bbbbbbbb".toList, c ≠ ' ') ∧ 5 < "bbbbbbbb".toList.length ∧
      insertStepI 5 6 "bbbbbbbb".toList =
        some ("bbbbbbbb".toList.take ("bbbbbbbb".toList.length - 1),
          "bbbbbbbb".toList.drop ("bbbbbbbb".toList.length - 1))) :=
  ⟨⟨by decide, insert_newlines_termination_amended.1 "ab cd".toList 3 1 (by decide)⟩,
    ⟨by decide, by decide,
      insert_newlines_termination_amended.2.2.1 "bbbbbbbb".toList (by decide)
        (by decide)⟩⟩
